import Mathlib

/-!
Calc: tokenizer, operator-precedence parser and postfix evaluator.

A shallow embedding of `src/Calc/calc.cpp` (with `operation.h` and `token.h`).

Modelling conventions.

* `double` is modelled by the exact rationals `ℚ`.
* `std::string` is `String`; the iterator of `Scan` is the list of characters still to read.
* `std::stack<Token>` is a `List Token` whose head is the top of the stack;
  `std::queue<Token>` is a `List Token` whose head is the front.
* A `throw std::exception(msg)` is `Except.error (Failure.exception msg)`.
* Dereferencing a null `oper` pointer and calling `top()` on an empty stack have no
  defined behaviour in C++; both are `Except.error Failure.undefinedBehaviour`.
* `isspace`, `isdigit`, `isalpha` are taken in the "C" locale, and a character is one `char`
  of the string: the model is that of ASCII text, a character above 127 counting as neither
  whitespace, digit nor letter.
-/

namespace Calc

/-! ## Data model (`operation.h`, `token.h`) -/

/-- How a run of the program can go wrong: a thrown `std::exception` carrying its message,
or an operation whose behaviour C++ leaves undefined. -/
inductive Failure where
  | exception (what : String)
  | undefinedBehaviour
  deriving DecidableEq, Repr

/-- Enumeration `Operation::Type`: `infix` (an operator written before its operand),
`postfix`, `binary`. -/
inductive OperationType where
  | infixOp
  | postfixOp
  | binary
  deriving DecidableEq, Repr

/-- The argument vector `std::vector<double> args(2)` of `Evaluate`: always two cells,
`args[0]` and `args[1]`. -/
structure Args where
  a0 : ℚ
  a1 : ℚ
  deriving DecidableEq, Repr

/-- The type `FuncRealisation`: a function from the argument vector to a number, which may
throw. -/
abbrev FuncRealisation := Args → Except Failure ℚ

/-- The struct `Operation`. -/
structure Operation where
  prior : Int
  token : String
  type : OperationType
  func : FuncRealisation

/-- Enumeration `Token::Type`. -/
inductive TokenType where
  | operation
  | value
  deriving DecidableEq, Repr

/-- The struct `Token`; `oper` is the pointer to the resolved operation, `none` for `nullptr`. -/
structure Token where
  type : TokenType
  num : ℚ
  operName : String
  oper : Option Operation

/-! ## Default operations -/

/-- The lambda of the prefix `-` entry. -/
def negFunc : FuncRealisation := fun args => .ok (-args.a0)

/-- The lambda of the `*` entry. -/
def mulFunc : FuncRealisation := fun args => .ok (args.a0 * args.a1)

/-- The lambda of the `/` entry. -/
def divFunc : FuncRealisation := fun args =>
  if args.a1 = 0 then .error (.exception "Division by zero") else .ok (args.a0 / args.a1)

/-- The lambda of the `+` entry. -/
def addFunc : FuncRealisation := fun args => .ok (args.a0 + args.a1)

/-- The lambda of the binary `-` entry. -/
def subFunc : FuncRealisation := fun args => .ok (args.a0 - args.a1)

/-- The prefix negation descriptor. -/
def negOp : Operation := ⟨20, "-", .infixOp, negFunc⟩

/-- The multiplication descriptor. -/
def mulOp : Operation := ⟨30, "*", .binary, mulFunc⟩

/-- The division descriptor. -/
def divOp : Operation := ⟨30, "/", .binary, divFunc⟩

/-- The addition descriptor. -/
def addOp : Operation := ⟨10, "+", .binary, addFunc⟩

/-- The subtraction descriptor. -/
def subOp : Operation := ⟨10, "-", .binary, subFunc⟩

/-- The list `Calculator::defaultOperations`. -/
def defaultOperations : List Operation := [negOp, mulOp, divOp, addOp, subOp]

/-! ## Scan -/

/-- The function `isspace` in the "C" locale: space, and the controls `\t \n \v \f \r`. -/
def isspace (c : Char) : Bool := c.toNat = 32 || (9 ≤ c.toNat && c.toNat ≤ 13)

/-- The function `isdigit`. -/
def isdigit (c : Char) : Bool := 48 ≤ c.toNat && c.toNat ≤ 57

/-- The function `isalpha` in the "C" locale. -/
def isalpha (c : Char) : Bool :=
  (65 ≤ c.toNat && c.toNat ≤ 90) || (97 ≤ c.toNat && c.toNat ≤ 122)

/-- The value `*it - '0'` of a character. -/
def digitVal (c : Char) : ℚ := ((c.toNat : Int) - 48 : Int)

/-- The loop `while (it != str.end() && isdigit(*it)) { num = 10 * num + (*it - '0'); it++; }`;
returns the number and the iterator. -/
def scanInt : ℚ → List Char → ℚ × List Char
  | num, [] => (num, [])
  | num, c :: it => if isdigit c then scanInt (10 * num + digitVal c) it else (num, c :: it)

/-- The loop
`while (it != str.end() && isdigit(*it)) { muler /= 10; num += muler * (*it - '0'); it++; }`. -/
def scanFrac : ℚ → ℚ → List Char → ℚ × List Char
  | num, _, [] => (num, [])
  | num, muler, c :: it =>
    if isdigit c then scanFrac (num + muler / 10 * digitVal c) (muler / 10) it else (num, c :: it)

/-- The loop `while (it != str.end() && isalpha(*it)) { tok_name += *it; it++; }`. -/
def scanName : String → List Char → String × List Char
  | tok_name, [] => (tok_name, [])
  | tok_name, c :: it => if isalpha c then scanName (tok_name.push c) it else (tok_name, c :: it)

/-- The numeric branch of `Scan` (lines 76 to 95), entered with the iterator at a digit or a
`.`: the integer part, then the optional `.` and fractional part. -/
def scanNumber (it : List Char) : ℚ × List Char :=
  match scanInt 0 it with
  | (num, '.' :: it1) => scanFrac num 1 it1
  | (num, it1) => (num, it1)

/-- A value token as `Scan` builds it: `oper` null, `operName` the empty string. -/
def Token.ofNum (num : ℚ) : Token := ⟨.value, num, "", none⟩

/-- An operation token as `Scan` builds it: `oper` null; the field `num`, which `Scan` leaves
unset and nothing reads, is `0`. -/
def Token.ofName (operName : String) : Token := ⟨.operation, 0, operName, none⟩

/-- The assignment `tok.oper = &*opIter` of `Parse`: the token with its operation resolved. -/
def Token.withOper (tok : Token) (op : Operation) : Token := { tok with oper := some op }

/-- One pass through the body of the outer `while` of `Scan`, the iterator standing at `c`
with `it` behind it: the token pushed to `res`, if any, and the iterator after the pass. -/
def scanStep (c : Char) (it : List Char) : Option Token × List Char :=
  if isspace c then (none, it)
  else if c = '.' || isdigit c then
    let r := scanNumber (c :: it)
    (some (Token.ofNum r.1), r.2)
  else if isalpha c then
    let r := scanName "" (c :: it)
    (some (Token.ofName r.1), r.2)
  else (some (Token.ofName (String.singleton c)), it)

/-- The outer `while (it != str.end())` of `Scan`, run for at most `fuel` passes; `none` when
the passes run out before the end of the string. -/
def scanLoop : Nat → List Char → Option (List Token)
  | _, [] => some []
  | 0, _ :: _ => none
  | fuel + 1, c :: it =>
    match scanStep c it with
    | (none, it1) => scanLoop fuel it1
    | (some tok, it1) => (scanLoop fuel it1).map (tok :: ·)

/-- The body of `Calculator::Scan` on the characters of its argument. Every pass consumes a
character, so as many passes as there are characters reach the end (`scanLoop_eq_some`), and
the default `[]` is never taken. -/
def scanList (it : List Char) : List Token :=
  (scanLoop it.length it).getD []

/-- The method `Calculator::Scan`. -/
def Scan (str : String) : List Token :=
  scanList str.data

/-! ## Parse -/

/-- The function `MoreOrEqualPrior`. Each `else` belongs to the inner `if`. -/
def MoreOrEqualPrior (Op1 Op2 : Token) : Except Failure Bool :=
  if Op1.operName = "(" then
    if Op2.operName ≠ "(" then .ok false else .ok true
  else if Op1.operName = ")" then
    if Op2.operName ≠ "(" ∧ Op2.operName ≠ ")" then .ok false else .ok true
  else
    match Op2.oper with
    | none => .ok true
    | some o2 =>
      match Op1.oper with
      | none => .error .undefinedBehaviour
      | some o1 => .ok (decide (o1.prior ≥ o2.prior))

/-- The function `DropOpers`; returns the two stacks. -/
def DropOpers : List Token → List Token → Token → Except Failure (List Token × List Token)
  | numStack, [], _ => .ok (numStack, [])
  | numStack, top :: opStack, Op =>
    match MoreOrEqualPrior top Op with
    | .error e => .error e
    | .ok true => DropOpers (top :: numStack) opStack Op
    | .ok false => .ok (numStack, top :: opStack)

/-- The enumeration `State` of `Parse` (`prefix`, `suffix`, `done`, `end`). -/
inductive State where
  | pre
  | suf
  | done
  | fin
  deriving DecidableEq, Repr

/-- The call `std::find_if(operations.begin(), operations.end(), ...)` with the predicate
`op.type == opType && op.token == operName`. -/
def findOp (operations : List Operation) (opType : OperationType) (operName : String) :
    Option Operation :=
  operations.find? (fun op => decide (op.type = opType) && decide (op.token = operName))

/-- The loop `while (!numStack.empty()) { opStack.push(numStack.top()); numStack.pop(); }`. -/
def moveAll : List Token → List Token → List Token
  | [], opStack => opStack
  | top :: numStack, opStack => moveAll numStack (top :: opStack)

/-- The loop `while (!opStack.empty()) { res.push(opStack.top()); opStack.pop(); }`. -/
def popAll : List Token → List Token → List Token
  | [], res => res
  | top :: opStack, res => popAll opStack (res ++ [top])

/-- The token `closeBracket` of the `done` case. -/
def closeBracket : Token := ⟨.operation, 0, ")", none⟩

/-- The `done` case of the switch. -/
def parseDone (numStack opStack : List Token) : Except Failure (List Token) :=
  match DropOpers numStack opStack closeBracket with
  | .error e => .error e
  | .ok (numStack1, opStack1) =>
    if numStack1.isEmpty then .error (.exception "Missing ')'")
    else .ok (popAll (moveAll numStack1 opStack1) [])

/-- The lookahead test of the suffix case:
`it != tokens.end() && (it->type == value || (it->type == operation && it->operName != "("))`. -/
def nextIsOperand : List Token → Bool
  | [] => false
  | nxt :: _ =>
    decide (nxt.type = .value) || (decide (nxt.type = .operation) && decide (nxt.operName ≠ "("))

/-- The operation type and the descriptor the suffix case settles on: the lookup with the
lookahead type first and, when that type was `postfix` and nothing was found, the lookup with
`binary`; `none` when `opIter == operations.end()` at the end. -/
def resolveSuffix (operations : List Operation) (operName : String) (it : List Token) :
    Option (OperationType × Operation) :=
  if nextIsOperand it then
    match findOp operations .binary operName with
    | some op => some (.binary, op)
    | none => none
  else
    match findOp operations .postfixOp operName with
    | some op => some (.postfixOp, op)
    | none =>
      match findOp operations .binary operName with
      | some op => some (.binary, op)
      | none => none

/-- The case `State::prefix` of the switch, on the token `tok` just read: the next state and
the two stacks. -/
def prefixCase (operations : List Operation) (tok : Token) (numStack opStack : List Token) :
    Except Failure (State × List Token × List Token) :=
  if tok.type = .value then .ok (.suf, tok :: numStack, opStack)
  else if tok.operName ≠ "(" then
    match findOp operations .infixOp tok.operName with
    | none => .error (.exception ("Unknown infix operation " ++ tok.operName))
    | some op => .ok (.pre, numStack, tok.withOper op :: opStack)
  else .ok (.pre, numStack, tok :: opStack)

/-- The case `State::suffix` of the switch, on the token `tok` just read, the iterator `it`
standing behind it: the next state and the two stacks. -/
def suffixCase (operations : List Operation) (tok : Token) (it : List Token)
    (numStack opStack : List Token) : Except Failure (State × List Token × List Token) :=
  if tok.type = .value ∨ tok.operName = "(" then .error (.exception "Expect operation")
  else if tok.operName = ")" then
    match DropOpers numStack opStack tok with
    | .error e => .error e
    | .ok (_, []) => .error (.exception "Missing '('")
    | .ok (numStack1, top :: opStack1) =>
      if top.operName = "(" then .ok (.suf, numStack1, opStack1)
      else .error (.exception "Missing '('")
  else
    match resolveSuffix operations tok.operName it with
    | none => .error (.exception ("Unknown operation " ++ tok.operName))
    | some (opType, op) =>
      match DropOpers numStack opStack (tok.withOper op) with
      | .error e => .error e
      | .ok (numStack1, opStack1) =>
        .ok (if opType = .binary then .pre else .suf, numStack1,
          tok.withOper op :: opStack1)

/-- The `while (state != State::end)` loop of `Parse`, entered in state `state` with the
iterator at `it` and the queue `res` empty; returns `res`. Each pass in state `prefix` or
`suffix` reads one token, or finds the end of the tokens. -/
def parseLoop (operations : List Operation) :
    State → List Token → List Token → List Token → Except Failure (List Token)
  | .fin, _, _, _ => .ok []
  | .done, _, numStack, opStack => parseDone numStack opStack
  | .pre, [], _, _ => .error (.exception "Unexpected end of expression")
  | .suf, [], numStack, opStack => parseDone numStack opStack
  | .pre, tok :: it, numStack, opStack =>
    match prefixCase operations tok numStack opStack with
    | .error e => .error e
    | .ok (state, numStack1, opStack1) => parseLoop operations state it numStack1 opStack1
  | .suf, tok :: it, numStack, opStack =>
    match suffixCase operations tok it numStack opStack with
    | .error e => .error e
    | .ok (state, numStack1, opStack1) => parseLoop operations state it numStack1 opStack1

/-- The method `Calculator::Parse`. -/
def Parse (operations : List Operation) (tokens : List Token) : Except Failure (List Token) :=
  parseLoop operations .pre tokens [] []

/-! ## Evaluate -/

/-- The loop `while (!tokenQ.empty())` of `Evaluate`; returns the value stack at its end. -/
def evalLoop : List Token → List ℚ → Args → Except Failure (List ℚ)
  | [], numStack, _ => .ok numStack
  | tok :: tokenQ, numStack, args =>
    if tok.type = .value then evalLoop tokenQ (tok.num :: numStack) args
    else
      match tok.oper with
      | none => .error .undefinedBehaviour
      | some op =>
        if op.type = .binary then
          match numStack with
          | x1 :: x0 :: numStack1 =>
            match op.func ⟨x0, x1⟩ with
            | .error e => .error e
            | .ok r => evalLoop tokenQ (r :: numStack1) ⟨x0, x1⟩
          | _ => .error .undefinedBehaviour
        else
          match numStack with
          | x0 :: numStack1 =>
            match op.func ⟨x0, args.a1⟩ with
            | .error e => .error e
            | .ok r => evalLoop tokenQ (r :: numStack1) ⟨x0, args.a1⟩
          | [] => .error .undefinedBehaviour

/-- The part of `Evaluate` after `Parse(Scan(str))`: the loop and `return numStack.top()`. -/
def evalQueue (tokenQ : List Token) : Except Failure ℚ :=
  match evalLoop tokenQ [] ⟨0, 0⟩ with
  | .error e => .error e
  | .ok [] => .error .undefinedBehaviour
  | .ok (top :: _) => .ok top

/-- The method `Calculator::Evaluate` of a calculator whose list `operations` is given. -/
def Evaluate (operations : List Operation) (str : String) : Except Failure ℚ :=
  match Parse operations (Scan str) with
  | .error e => .error e
  | .ok tokenQ => evalQueue tokenQ

/-! ## Runs of `Parse` -/

/-- The loop of `Parse`, started on `tokens`, comes to the head of a pass in state `state`
with the iterator at `it` and the stacks `numStack`, `opStack`: it starts in state `prefix`
with both stacks empty, and each pass that throws nothing leads to the next head. -/
inductive Visits (operations : List Operation) (tokens : List Token) :
    State → List Token → List Token → List Token → Prop where
  | start : Visits operations tokens .pre tokens [] []
  | prefixPass {tok : Token} {it numStack opStack : List Token} {state : State}
      {numStack1 opStack1 : List Token} :
      Visits operations tokens .pre (tok :: it) numStack opStack →
      prefixCase operations tok numStack opStack = .ok (state, numStack1, opStack1) →
      Visits operations tokens state it numStack1 opStack1
  | suffixPass {tok : Token} {it numStack opStack : List Token} {state : State}
      {numStack1 opStack1 : List Token} :
      Visits operations tokens .suf (tok :: it) numStack opStack →
      suffixCase operations tok it numStack opStack = .ok (state, numStack1, opStack1) →
      Visits operations tokens state it numStack1 opStack1

/-! ## Postfix sequences -/

/-- The stack discipline of the evaluator on a postfix sequence, on the height of the value
stack alone: a value pushes one, a binary operator pops two and pushes one, a prefix or
postfix operator pops one and pushes one; `none` when an operator token carries no resolved
descriptor or a pop finds the stack empty. -/
def stackDiscipline : List Token → Nat → Option Nat
  | [], height => some height
  | tok :: tokenQ, height =>
    if tok.type = .value then stackDiscipline tokenQ (height + 1)
    else
      match tok.oper with
      | none => none
      | some op =>
        if op.type = .binary then
          if 2 ≤ height then stackDiscipline tokenQ (height - 1) else none
        else
          if 1 ≤ height then stackDiscipline tokenQ height else none

/-- A valid postfix sequence: the stack discipline, started on the empty stack, goes through
and leaves exactly one value. -/
def validPostfix (tokenQ : List Token) : Bool :=
  stackDiscipline tokenQ 0 = some 1

/-! ## Runs of `Scan` -/

/-- The outer loop of `Scan`, entered with the iterator at `it`, comes to the head of a pass
with the iterator at `r`: a place of the string where no token is being read, the end of one
token and the start of the next, or whitespace. -/
inductive ScanVisits : List Char → List Char → Prop where
  | start (it : List Char) : ScanVisits it it
  | pass (c : Char) (it r : List Char) : ScanVisits (scanStep c it).2 r → ScanVisits (c :: it) r

/-! ## Numeric literals -/

/-- A numeric literal: a run of digits, optionally followed by `.` and a run of digits, either
run possibly empty, the whole not empty. -/
def isNumericLiteral (a : String) : Bool :=
  match a.data.dropWhile isdigit with
  | [] => !a.data.isEmpty
  | c :: F => decide (c = '.') && F.all isdigit

/-! ## Registries with an operator named like a parenthesis -/

/-- A binary descriptor of priority 30 whose token text is `)`. -/
def closeParenOp : Operation := ⟨30, ")", .binary, mulFunc⟩

/-- A binary descriptor of priority 10 whose token text is `(`. -/
def openParenOp : Operation := ⟨10, "(", .binary, addFunc⟩

/-- A binary descriptor of priority 10 whose token text is `)`. -/
def closeParenLowOp : Operation := ⟨10, ")", .binary, subFunc⟩

/-! ## The registry -/

/-- The constructor `Calculator::Calculator`, the loading of the libraries left out: `loaded`
lists, in the order of the directory, what each of its entries ends with, `none` when the
library does not load, exports no `GetOperations`, or that returns `NULL`, else the list it
returns. The result is the member `operations`: the default operations, each returned list
inserted at the end in turn. -/
def Calculator (loaded : List (Option (List Operation))) : List Operation :=
  loaded.foldl
    (fun operations opers =>
      match opers with
      | none => operations
      | some l => operations ++ l)
    defaultOperations

/-- A binary descriptor of priority 99 under the text `+`, as a library may return it. -/
def providedPlusOp : Operation := ⟨99, "+", .binary, mulFunc⟩

/-- A prefix descriptor of priority 5 under the text `-`, as a library may return it. -/
def providedMinusOp : Operation := ⟨5, "-", .infixOp, addFunc⟩

/-! ## Source positions of the tokens -/

/-- The outer loop of `Scan` as `scanLoop` runs it, each token paired with the position in the
string at which its pass began; `pos` is the position of the iterator. -/
def scanLoopAt : Nat → Nat → List Char → Option (List (Nat × Token))
  | _, _, [] => some []
  | 0, _, _ :: _ => none
  | fuel + 1, pos, c :: it =>
    match scanStep c it with
    | (none, it1) => scanLoopAt fuel (pos + ((c :: it).length - it1.length)) it1
    | (some tok, it1) =>
      (scanLoopAt fuel (pos + ((c :: it).length - it1.length)) it1).map ((pos, tok) :: ·)

/-! ## Failures of the descriptors -/

/-- The failure `e` is one that the function of a descriptor carried by a token of `tokenQ`
ends with on some arguments. -/
def thrownByDescriptor (tokenQ : List Token) (e : Failure) : Prop :=
  ∃ tok ∈ tokenQ, ∃ (op : Operation) (args : Args),
    tok.oper = some op ∧ op.func args = .error e

/-! ## Pending binary operators -/

/-- The number of binary operators waiting on the operator stack: the tokens not named `(`
whose resolved operation is binary. -/
def pendingBinary : List Token → Nat
  | [] => 0
  | t :: opStack =>
    (if t.operName ≠ "(" then
      match t.oper with
      | some op => if op.type = .binary then 1 else 0
      | none => 0
    else 0) + pendingBinary opStack

/-- The natural number a string of digits denotes in base ten; 0 for the empty string. -/
def decimal (s : List Char) : Nat :=
  s.foldl (fun n c => 10 * n + (c.toNat - 48)) 0

/-! ## The end of the operator branch -/

/-- The end of the operator branch of the suffix case once the descriptor `op` is settled:
`tok.oper = &*opIter`, the drain for the token, its push, and the state to go on in. -/
def pushResolved (tok : Token) (op : Operation) (state : State) (numStack opStack : List Token) :
    Except Failure (State × List Token × List Token) :=
  match DropOpers numStack opStack (tok.withOper op) with
  | .error e => .error e
  | .ok (numStack1, opStack1) => .ok (state, numStack1, tok.withOper op :: opStack1)

/-! ## The postfix operator of the library builder -/

/-- The conversion `static_cast<int>` of a `double`: the fraction dropped, toward zero;
undefined when the result is no `int`. -/
def toInt (x : ℚ) : Except Failure Int :=
  let n : Int := if 0 ≤ x then x.floor else -(-x).floor
  if -2147483648 ≤ n ∧ n ≤ 2147483647 then .ok n else .error .undefinedBehaviour

/-- The postfix operator `i` of `src/DllBuilder/main.cpp` (the list under `#if 0`):
`static_cast<double>(static_cast<int>(args[0]))`. -/
def iOp : Operation :=
  ⟨40, "i", .postfixOp, fun args =>
    match toInt args.a0 with
    | .error e => .error e
    | .ok n => .ok (n : ℚ)⟩

/-- A postfix descriptor of priority 40 whose token text is `)`. -/
def closeParenPostfixOp : Operation := ⟨40, ")", .postfixOp, negFunc⟩

/-! ## Provided operators that share a text with a default one -/

/-- The result of `Parse` is the result of the loop continued from any head it visits. -/
theorem Parse_eq_of_visits {operations : List Operation} {tokens : List Token} {state : State}
    {it numStack opStack : List Token} (h : Visits operations tokens state it numStack opStack) :
    Parse operations tokens = parseLoop operations state it numStack opStack := by
  induction h with
  | start => rfl
  | prefixPass _ hc ih => rw [ih, parseLoop, hc]
  | suffixPass _ hc ih => rw [ih, parseLoop, hc]

/-- What `DropOpers` leaves on the operator stack was on it before. -/
theorem DropOpers_mem (Op : Token) (opStack : List Token) :
    ∀ (numStack numStack1 opStack1 : List Token),
      DropOpers numStack opStack Op = .ok (numStack1, opStack1) →
      ∀ t ∈ opStack1, t ∈ opStack := by
  induction opStack with
  | nil =>
    intro numStack numStack1 opStack1 h t ht
    simp only [DropOpers, Except.ok.injEq, Prod.mk.injEq] at h
    rw [← h.2] at ht
    exact ht
  | cons top rest ih =>
    intro numStack numStack1 opStack1 h t ht
    rw [DropOpers] at h
    split at h
    · exact absurd h (by simp)
    · exact List.mem_cons_of_mem _ (ih _ _ _ h t ht)
    · simp only [Except.ok.injEq, Prod.mk.injEq] at h
      rw [← h.2] at ht
      exact ht

/-- On every operator stack the loop of `Parse` builds, a token not named `(` carries a
resolved operation. -/
theorem Visits.resolved {operations : List Operation} {tokens : List Token} {state : State}
    {it numStack opStack : List Token} (h : Visits operations tokens state it numStack opStack) :
    ∀ t ∈ opStack, t.operName ≠ "(" → t.oper ≠ none := by
  induction h with
  | start => intro t ht; simp at ht
  | @prefixPass tok it numStack opStack state numStack1 opStack1 _ hc ih =>
    intro t ht hname
    unfold prefixCase at hc
    split at hc
    · simp only [Except.ok.injEq, Prod.mk.injEq] at hc
      rw [← hc.2.2] at ht
      exact ih t ht hname
    · split at hc
      · split at hc
        · exact absurd hc (by simp)
        · simp only [Except.ok.injEq, Prod.mk.injEq] at hc
          rw [← hc.2.2] at ht
          rcases List.mem_cons.mp ht with heq | hmem
          · rw [heq]
            simp [Token.withOper]
          · exact ih t hmem hname
      · next hopen =>
        simp only [Except.ok.injEq, Prod.mk.injEq] at hc
        rw [← hc.2.2] at ht
        rcases List.mem_cons.mp ht with heq | hmem
        · rw [heq] at hname
          exact absurd (not_not.mp hopen) hname
        · exact ih t hmem hname
  | @suffixPass tok it numStack opStack state numStack1 opStack1 _ hc ih =>
    intro t ht hname
    unfold suffixCase at hc
    split at hc
    · exact absurd hc (by simp)
    · split at hc
      · split at hc
        · exact absurd hc (by simp)
        · exact absurd hc (by simp)
        · next ns1 top os1 hd =>
          split at hc
          · simp only [Except.ok.injEq, Prod.mk.injEq] at hc
            rw [← hc.2.2] at ht
            exact ih t (DropOpers_mem _ _ _ _ _ hd t (List.mem_cons_of_mem _ ht)) hname
          · exact absurd hc (by simp)
      · split at hc
        · exact absurd hc (by simp)
        · split at hc
          · exact absurd hc (by simp)
          · next ns1 os1 hd =>
            simp only [Except.ok.injEq, Prod.mk.injEq] at hc
            rw [← hc.2.2] at ht
            rcases List.mem_cons.mp ht with heq | hmem
            · rw [heq]
              simp [Token.withOper]
            · exact ih t (DropOpers_mem _ _ _ _ _ hd t hmem) hname

/-- A token named `)` makes `DropOpers` run without fault on a stack of resolved tokens none
of which is named `(`. -/
theorem DropOpers_close_ok (rp : Token) (hname : rp.operName = ")") (opStack : List Token) :
    ∀ numStack : List Token, (∀ t ∈ opStack, t.operName ≠ "(" ∧ t.oper ≠ none) →
      ∃ numStack1 opStack1 : List Token,
        DropOpers numStack opStack rp = .ok (numStack1, opStack1) := by
  induction opStack with
  | nil => intro numStack _; exact ⟨numStack, [], rfl⟩
  | cons top rest ih =>
    intro numStack hall
    obtain ⟨htop, hoper⟩ := hall top (List.mem_cons_self _ _)
    have hrest : ∀ t ∈ rest, t.operName ≠ "(" ∧ t.oper ≠ none :=
      fun t ht => hall t (List.mem_cons_of_mem _ ht)
    have hm : ∃ b : Bool, MoreOrEqualPrior top rp = .ok b := by
      unfold MoreOrEqualPrior
      rw [if_neg htop]
      by_cases hclose : top.operName = ")"
      · rw [if_pos hclose, if_neg (by simp [hname])]
        exact ⟨true, rfl⟩
      · rw [if_neg hclose]
        cases h2 : rp.oper with
        | none => exact ⟨true, rfl⟩
        | some o2 =>
          cases h1 : top.oper with
          | none => exact absurd h1 hoper
          | some o1 => exact ⟨_, rfl⟩
    obtain ⟨b, hb⟩ := hm
    rw [DropOpers, hb]
    cases b with
    | true => exact ih (top :: numStack) hrest
    | false => exact ⟨numStack, top :: rest, rfl⟩

/-! ### C1 -/

/-- C1, as it stands, fails for a binary operator whose text is `)`: with `+` of priority 10
and a binary `)` of priority 30, `Parse` of `[1, +, 2, ), 3]` throws "Missing '('" where the
claim promises `[1, 2, 3, ), +]`. -/
theorem C1_counterexample_close_paren_operator :
    findOp [addOp, closeParenOp] .binary "+" = some addOp
      ∧ findOp [addOp, closeParenOp] .binary ")" = some closeParenOp
      ∧ closeParenOp.prior > addOp.prior
      ∧ Parse [addOp, closeParenOp]
          [Token.ofNum 1, Token.ofName "+", Token.ofNum 2, Token.ofName ")", Token.ofNum 3]
        = .error (.exception "Missing '('") := by
  refine ⟨rfl, rfl, by decide, ?_⟩
  with_unfolding_all rfl

/-- C1 (amended): for every registry and every two operation tokens `t1`, `t2` named neither
`(` nor `)` whose texts the registry resolves as binary operators to `op1` and `op2` with
`op2.prior > op1.prior`, and all value tokens `a`, `b`, `c`, `Parse` of `[a, t1, b, t2, c]` is
the postfix sequence `[a, b, c, t2, t1]`, the operation tokens now carrying `op2` and `op1`;
and `Evaluate("1+2*3")` is 7 with the default operations. -/
theorem C1_higher_priority_binds_tighter (operations : List Operation) (op1 op2 : Operation)
    (t1 t2 a b c : Token)
    (ha : a.type = .value) (hb : b.type = .value) (hc : c.type = .value)
    (ht1 : t1.type = .operation) (ht2 : t2.type = .operation)
    (hs1 : t1.operName ≠ "(" ∧ t1.operName ≠ ")")
    (hs2 : t2.operName ≠ "(" ∧ t2.operName ≠ ")")
    (h1 : findOp operations .binary t1.operName = some op1)
    (h2 : findOp operations .binary t2.operName = some op2)
    (hprior : op2.prior > op1.prior) :
    Parse operations [a, t1, b, t2, c]
        = .ok [a, b, c, t2.withOper op2,
            t1.withOper op1]
      ∧ Evaluate defaultOperations "1+2*3" = .ok 7 := by
  refine ⟨?_, by with_unfolding_all rfl⟩
  obtain ⟨hs1l, hs1r⟩ := hs1
  obtain ⟨hs2l, hs2r⟩ := hs2
  have hlt : ¬ (op2.prior ≤ op1.prior) := not_le.mpr hprior
  simp [Parse, parseLoop, prefixCase, suffixCase, DropOpers, MoreOrEqualPrior, resolveSuffix,
    nextIsOperand, parseDone, moveAll, popAll, closeBracket, Token.withOper, ha, hb, hc, ht1,
    ht2, h1, h2, hs1l, hs1r, hs2l, hs2r, hlt]

/-- C1 at the default operations: `1 + 2 * 3` parses to `1 2 3 * +`. -/
theorem C1_witness_default_operations :
    Parse defaultOperations
        [Token.ofNum 1, Token.ofName "+", Token.ofNum 2, Token.ofName "*", Token.ofNum 3]
        = .ok [Token.ofNum 1, Token.ofNum 2, Token.ofNum 3,
            (Token.ofName "*").withOper mulOp,
            (Token.ofName "+").withOper addOp]
      ∧ Evaluate defaultOperations "1+2*3" = .ok 7 :=
  C1_higher_priority_binds_tighter defaultOperations addOp mulOp (Token.ofName "+")
    (Token.ofName "*") (Token.ofNum 1) (Token.ofNum 2) (Token.ofNum 3) rfl rfl rfl rfl rfl
    ⟨by decide, by decide⟩ ⟨by decide, by decide⟩ rfl rfl (by decide)

/-! ### C2 -/

/-- C2, as it stands, fails for a binary operator whose text is `(`: with a binary `(` and
`*` registered, `Parse` of `[(, 1, (, 2, ), *, 3]` throws "Expect operation" at the second
`(`. -/
theorem C2_counterexample_open_paren_operator :
    findOp [openParenOp, mulOp] .binary "(" = some openParenOp
      ∧ findOp [openParenOp, mulOp] .binary "*" = some mulOp
      ∧ Parse [openParenOp, mulOp]
          [Token.ofName "(", Token.ofNum 1, Token.ofName "(", Token.ofNum 2, Token.ofName ")",
            Token.ofName "*", Token.ofNum 3]
        = .error (.exception "Expect operation") := by
  refine ⟨rfl, rfl, ?_⟩
  with_unfolding_all rfl

/-- C2 (amended): for every registry and every two operation tokens `t1`, `t2` named neither
`(` nor `)` whose texts the registry resolves as binary operators to `op1` and `op2`, whatever
their priorities, and all value tokens `a`, `b`, `c`, `Parse` of `[(, a, t1, b, ), t2, c]` is
`[a, b, t1, c, t2]`, the operation tokens now carrying `op1` and `op2`, and no operation token
of it is named `(` or `)`; and `Evaluate("(1+2)*3")` is 9 with the default operations. -/
theorem C2_parentheses_override_priority (operations : List Operation) (op1 op2 : Operation)
    (t1 t2 a b c : Token)
    (ha : a.type = .value) (hb : b.type = .value) (hc : c.type = .value)
    (ht1 : t1.type = .operation) (ht2 : t2.type = .operation)
    (hs1 : t1.operName ≠ "(" ∧ t1.operName ≠ ")")
    (hs2 : t2.operName ≠ "(" ∧ t2.operName ≠ ")")
    (h1 : findOp operations .binary t1.operName = some op1)
    (h2 : findOp operations .binary t2.operName = some op2) :
    Parse operations
        [Token.ofName "(", a, t1, b, Token.ofName ")", t2, c]
        = .ok [a, b, t1.withOper op1, c,
            t2.withOper op2]
      ∧ (∀ t ∈ [a, b, t1.withOper op1, c, t2.withOper op2],
          t.type = .operation → t.operName ≠ "(" ∧ t.operName ≠ ")")
      ∧ Evaluate defaultOperations "(1+2)*3" = .ok 9 := by
  obtain ⟨hs1l, hs1r⟩ := hs1
  obtain ⟨hs2l, hs2r⟩ := hs2
  refine ⟨?_, ?_, by with_unfolding_all rfl⟩
  · simp [Parse, parseLoop, prefixCase, suffixCase, DropOpers, MoreOrEqualPrior, resolveSuffix,
      nextIsOperand, parseDone, moveAll, popAll, closeBracket, Token.ofName, Token.withOper, ha,
      hb, hc, ht1, ht2, h1, h2, hs1l, hs1r, hs2l, hs2r]
  · simp [Token.withOper, ha, hb, hc, hs1l, hs1r, hs2l, hs2r]

/-- C2 at the default operations: `(1 + 2) * 3` parses to `1 2 + 3 *`. -/
theorem C2_witness_default_operations :
    Parse defaultOperations
        [Token.ofName "(", Token.ofNum 1, Token.ofName "+", Token.ofNum 2, Token.ofName ")",
          Token.ofName "*", Token.ofNum 3]
        = .ok [Token.ofNum 1, Token.ofNum 2, (Token.ofName "+").withOper addOp,
            Token.ofNum 3, (Token.ofName "*").withOper mulOp]
      ∧ (∀ t ∈ [Token.ofNum 1, Token.ofNum 2, (Token.ofName "+").withOper addOp,
            Token.ofNum 3, (Token.ofName "*").withOper mulOp],
          t.type = .operation → t.operName ≠ "(" ∧ t.operName ≠ ")")
      ∧ Evaluate defaultOperations "(1+2)*3" = .ok 9 :=
  C2_parentheses_override_priority defaultOperations addOp mulOp (Token.ofName "+")
    (Token.ofName "*") (Token.ofNum 1) (Token.ofNum 2) (Token.ofNum 3) rfl rfl rfl rfl rfl
    ⟨by decide, by decide⟩ ⟨by decide, by decide⟩ rfl rfl

/-! ### C3 -/

/-- What a successful lookup returns has the type and the text that were looked up. -/
theorem findOp_some {operations : List Operation} {opType : OperationType} {operName : String}
    {op : Operation} (h : findOp operations opType operName = some op) :
    op.type = opType ∧ op.token = operName := by
  have := List.find?_some h
  simpa using this

/-- C3, as it stands, fails for a binary operator whose text is `)`: with `+` and a binary
`)` both of priority 10, `Parse` of `[1, ), 2, +, 3]` throws "Missing '('". -/
theorem C3_counterexample_close_paren_operator :
    findOp [addOp, closeParenLowOp] .binary ")" = some closeParenLowOp
      ∧ findOp [addOp, closeParenLowOp] .binary "+" = some addOp
      ∧ closeParenLowOp.prior = addOp.prior
      ∧ Parse [addOp, closeParenLowOp]
          [Token.ofNum 1, Token.ofName ")", Token.ofNum 2, Token.ofName "+", Token.ofNum 3]
        = .error (.exception "Missing '('") := by
  refine ⟨rfl, rfl, by decide, ?_⟩
  with_unfolding_all rfl

/-- C3 (amended): for every registry and every two operation tokens `t1`, `t2` named neither
`(` nor `)` whose texts the registry resolves as binary operators to `op1` and `op2` of equal
priority, and all value tokens `a`, `b`, `c`, `Parse` of `[a, t1, b, t2, c]` is
`[a, b, t1, c, t2]`, the operation tokens now carrying `op1` and `op2`, and the evaluator
computes on it `op2(op1(a, b), c)`; and `Evaluate("8-3-2")` is 3 with the default
operations. -/
theorem C3_equal_priority_left_associative (operations : List Operation) (op1 op2 : Operation)
    (t1 t2 a b c : Token)
    (ha : a.type = .value) (hb : b.type = .value) (hc : c.type = .value)
    (ht1 : t1.type = .operation) (ht2 : t2.type = .operation)
    (hs1 : t1.operName ≠ "(" ∧ t1.operName ≠ ")")
    (hs2 : t2.operName ≠ "(" ∧ t2.operName ≠ ")")
    (h1 : findOp operations .binary t1.operName = some op1)
    (h2 : findOp operations .binary t2.operName = some op2)
    (hprior : op1.prior = op2.prior) :
    Parse operations [a, t1, b, t2, c]
        = .ok [a, b, t1.withOper op1, c,
            t2.withOper op2]
      ∧ evalQueue [a, b, t1.withOper op1, c,
            t2.withOper op2]
        = (op1.func ⟨a.num, b.num⟩ >>= fun r => op2.func ⟨r, c.num⟩)
      ∧ Evaluate defaultOperations "8-3-2" = .ok 3 := by
  obtain ⟨hs1l, hs1r⟩ := hs1
  obtain ⟨hs2l, hs2r⟩ := hs2
  have hb1 := (findOp_some h1).1
  have hb2 := (findOp_some h2).1
  refine ⟨?_, ?_, by with_unfolding_all rfl⟩
  · simp [Parse, parseLoop, prefixCase, suffixCase, DropOpers, MoreOrEqualPrior, resolveSuffix,
      nextIsOperand, parseDone, moveAll, popAll, closeBracket, Token.withOper, ha, hb, hc, ht1,
      ht2, h1, h2, hs1l, hs1r, hs2l, hs2r, hprior]
  · have hne : ¬ (TokenType.operation = TokenType.value) := by decide
    simp only [evalQueue, evalLoop, ha, hb, hc, Token.withOper, ht1, ht2, hb1, hb2, if_true,
      hne, if_false]
    cases h : op1.func ⟨a.num, b.num⟩ with
    | error e => rfl
    | ok r =>
      cases h' : op2.func ⟨r, c.num⟩ with
      | error e => simp [bind, Except.bind, h']
      | ok r' => simp [bind, Except.bind, h']

/-- C3 at the default operations: `8 - 3 - 2` parses to `8 3 - 2 -`. -/
theorem C3_witness_default_operations :
    Parse defaultOperations
        [Token.ofNum 8, Token.ofName "-", Token.ofNum 3, Token.ofName "-", Token.ofNum 2]
        = .ok [Token.ofNum 8, Token.ofNum 3, (Token.ofName "-").withOper subOp,
            Token.ofNum 2, (Token.ofName "-").withOper subOp]
      ∧ evalQueue [Token.ofNum 8, Token.ofNum 3, (Token.ofName "-").withOper subOp,
            Token.ofNum 2, (Token.ofName "-").withOper subOp]
        = (subOp.func ⟨(Token.ofNum 8).num, (Token.ofNum 3).num⟩
            >>= fun r => subOp.func ⟨r, (Token.ofNum 2).num⟩)
      ∧ Evaluate defaultOperations "8-3-2" = .ok 3 :=
  C3_equal_priority_left_associative defaultOperations subOp subOp (Token.ofName "-")
    (Token.ofName "-") (Token.ofNum 8) (Token.ofNum 3) (Token.ofNum 2) rfl rfl rfl rfl rfl
    ⟨by decide, by decide⟩ ⟨by decide, by decide⟩ rfl rfl rfl

/-! ### C4 -/

/-- The only text the default operations register as a prefix operator is `-`. -/
theorem findOp_default_infixOp {s : String} {p : Operation}
    (h : findOp defaultOperations .infixOp s = some p) : s = "-" ∧ p = negOp := by
  by_cases hs : s = "-"
  · subst hs
    exact ⟨rfl, by simpa [findOp, defaultOperations, negOp] using h.symm⟩
  · have hs' : ¬ ("-" = s) := fun e => hs e.symm
    simp [findOp, defaultOperations, negOp, mulOp, divOp, addOp, subOp, hs'] at h

/-- C5 on the code: on `(1+2` the `done` case finds the accumulator non-empty, so no
"Missing ')'" is thrown; `Parse` returns `1 2 + (`, the `(` still without descriptor, and
`Evaluate` then reads the operation of that token through a null pointer. -/
theorem C5_missing_close_paren_not_reported :
    Scan "(1+2" = [Token.ofName "(", Token.ofNum 1, Token.ofName "+", Token.ofNum 2]
      ∧ Parse defaultOperations (Scan "(1+2")
        = .ok [Token.ofNum 1, Token.ofNum 2, (Token.ofName "+").withOper addOp, Token.ofName "("]
      ∧ Evaluate defaultOperations "(1+2" = .error .undefinedBehaviour
      ∧ Evaluate defaultOperations "(1+2" ≠ .error (.exception "Missing ')'") := by
  refine ⟨by with_unfolding_all rfl, by with_unfolding_all rfl, by with_unfolding_all rfl, ?_⟩
  rw [show Evaluate defaultOperations "(1+2" = .error .undefinedBehaviour
    from by with_unfolding_all rfl]
  simp

/-! ### C6 -/

/-- C6: for every registry and every token sequence, when the loop of `Parse` comes to read,
in state `suffix`, an operation token named `)` while no token of the operator stack is named
`(`, `Parse` throws "Missing '('"; and `Evaluate("1+2)")` throws it with the default
operations. -/
theorem C6_missing_open_paren (operations : List Operation) (tokens : List Token) (rp : Token)
    (it numStack opStack : List Token)
    (htype : rp.type = .operation) (hname : rp.operName = ")")
    (hvisit : Visits operations tokens .suf (rp :: it) numStack opStack)
    (hno : ∀ t ∈ opStack, t.operName ≠ "(") :
    Parse operations tokens = .error (.exception "Missing '('")
      ∧ Evaluate defaultOperations "1+2)" = .error (.exception "Missing '('") := by
  refine ⟨?_, by with_unfolding_all rfl⟩
  rw [Parse_eq_of_visits hvisit, parseLoop]
  have hres := hvisit.resolved
  obtain ⟨numStack1, opStack1, hd⟩ := DropOpers_close_ok rp hname opStack numStack
    (fun t ht => ⟨hno t ht, hres t ht (hno t ht)⟩)
  have hmem := DropOpers_mem rp opStack numStack numStack1 opStack1 hd
  cases opStack1 with
  | nil => simp [suffixCase, htype, hname, hd]
  | cons top rest =>
    have htop : top.operName ≠ "(" := hno top (hmem top (List.mem_cons_self _ _))
    simp [suffixCase, htype, hname, hd, htop]

/-- C6 on the tokens of `1+2)`: the `)` is read in state `suffix` with only `+` on the operator
stack. -/
theorem C6_witness_one_plus_two_close :
    Parse defaultOperations
        [Token.ofNum 1, Token.ofName "+", Token.ofNum 2, Token.ofName ")"]
        = .error (.exception "Missing '('")
      ∧ Evaluate defaultOperations "1+2)" = .error (.exception "Missing '('") :=
  C6_missing_open_paren defaultOperations
    [Token.ofNum 1, Token.ofName "+", Token.ofNum 2, Token.ofName ")"] (Token.ofName ")")
    [] [Token.ofNum 2, Token.ofNum 1] [(Token.ofName "+").withOper addOp] rfl rfl
    (Visits.prefixPass
      (Visits.suffixPass
        (Visits.prefixPass Visits.start rfl :
          Visits defaultOperations
            [Token.ofNum 1, Token.ofName "+", Token.ofNum 2, Token.ofName ")"] .suf
            [Token.ofName "+", Token.ofNum 2, Token.ofName ")"] [Token.ofNum 1] [])
        rfl :
        Visits defaultOperations
          [Token.ofNum 1, Token.ofName "+", Token.ofNum 2, Token.ofName ")"] .pre
          [Token.ofNum 2, Token.ofName ")"] [Token.ofNum 1] [(Token.ofName "+").withOper addOp])
      rfl)
    (by simp [Token.ofName, Token.withOper])

/-! ### The scanner -/

/-- The integer loop never lengthens the input. -/
theorem scanInt_length_le (it : List Char) :
    ∀ num : ℚ, (scanInt num it).2.length ≤ it.length := by
  induction it with
  | nil => intro num; simp [scanInt]
  | cons c it ih =>
    intro num
    rw [scanInt]
    split
    · exact Nat.le_succ_of_le (ih _)
    · exact Nat.le_refl _

/-- The fraction loop never lengthens the input. -/
theorem scanFrac_length_le (it : List Char) :
    ∀ num muler : ℚ, (scanFrac num muler it).2.length ≤ it.length := by
  induction it with
  | nil => intro num muler; simp [scanFrac]
  | cons c it ih =>
    intro num muler
    rw [scanFrac]
    split
    · exact Nat.le_succ_of_le (ih _ _)
    · exact Nat.le_refl _

/-- The name loop never lengthens the input. -/
theorem scanName_length_le (it : List Char) :
    ∀ tok_name : String, (scanName tok_name it).2.length ≤ it.length := by
  induction it with
  | nil => intro tok_name; simp [scanName]
  | cons c it ih =>
    intro tok_name
    rw [scanName]
    split
    · exact Nat.le_succ_of_le (ih _)
    · exact Nat.le_refl _

/-- The numeric branch never lengthens the input. -/
theorem scanNumber_length_le (it : List Char) : (scanNumber it).2.length ≤ it.length := by
  have h := scanInt_length_le it 0
  unfold scanNumber
  split
  · next num it1 heq =>
    rw [heq] at h
    exact le_trans (scanFrac_length_le it1 num 1) (le_trans (Nat.le_succ _) h)
  · next num it1 _ heq =>
    rw [heq] at h
    exact h

/-- The character `.` is no digit. -/
theorem isdigit_dot : isdigit '.' = false := by decide

/-- Every pass of the outer loop of `Scan` consumes the character it stands at. -/
theorem scanStep_length_le (c : Char) (it : List Char) :
    (scanStep c it).2.length ≤ it.length := by
  unfold scanStep
  split
  · exact Nat.le_refl _
  · split
    · next hnum =>
      show (scanNumber (c :: it)).2.length ≤ it.length
      by_cases hd : isdigit c = true
      · have h := scanInt_length_le it (10 * 0 + digitVal c)
        unfold scanNumber
        rw [scanInt, if_pos hd]
        split
        · next num it1 heq =>
          rw [heq] at h
          exact le_trans (scanFrac_length_le it1 num 1) (le_trans (Nat.le_succ _) h)
        · next num it1 _ heq =>
          rw [heq] at h
          exact h
      · have hc : c = '.' := by simpa [hd] using hnum
        subst hc
        unfold scanNumber
        rw [scanInt, if_neg (by simp [isdigit_dot])]
        exact scanFrac_length_le it 0 1
    · split
      · next halpha =>
        show (scanName "" (c :: it)).2.length ≤ it.length
        rw [scanName, if_pos halpha]
        exact scanName_length_le it _
      · exact Nat.le_refl _

/-- With enough passes the outer loop reaches the end, and its result does not depend on how
many passes it was given. -/
theorem scanLoop_fuel (fuel : Nat) :
    ∀ (it : List Char) (fuel1 : Nat), it.length ≤ fuel → it.length ≤ fuel1 →
      (scanLoop fuel it).isSome = true ∧ scanLoop fuel it = scanLoop fuel1 it := by
  induction fuel with
  | zero =>
    intro it fuel1 h _
    have hnil : it = [] := List.length_eq_zero.mp (Nat.le_zero.mp h)
    subst hnil
    cases fuel1 <;> simp [scanLoop]
  | succ fuel ih =>
    intro it fuel1 h h1
    cases it with
    | nil => cases fuel1 <;> simp [scanLoop]
    | cons c it =>
      cases fuel1 with
      | zero => simp at h1
      | succ fuel1 =>
        have hlen := scanStep_length_le c it
        have hle : (scanStep c it).2.length ≤ fuel :=
          le_trans hlen (Nat.le_of_succ_le_succ h)
        have hle1 : (scanStep c it).2.length ≤ fuel1 :=
          le_trans hlen (Nat.le_of_succ_le_succ h1)
        obtain ⟨hsome, heq⟩ := ih (scanStep c it).2 fuel1 hle hle1
        rw [scanLoop, scanLoop]
        rcases hstep : scanStep c it with ⟨_ | tok, it1⟩
        · rw [hstep] at hsome heq
          exact ⟨hsome, heq⟩
        · rw [hstep] at hsome heq
          simp only at hsome heq ⊢
          exact ⟨by simpa using hsome, by rw [heq]⟩

/-- As many passes as the string has characters give the result of `Scan`. -/
theorem scanLoop_eq_some (fuel : Nat) (it : List Char) (h : it.length ≤ fuel) :
    scanLoop fuel it = some (scanList it) := by
  have h1 := scanLoop_fuel fuel it it.length h (Nat.le_refl _)
  unfold scanList
  rw [← h1.2]
  cases hres : scanLoop fuel it with
  | none => rw [hres] at h1; simp at h1
  | some r => rfl

/-- `Scan` of the empty string. -/
theorem scanList_nil : scanList [] = [] := rfl

/-- `Scan` unfolded by one pass of its outer loop. -/
theorem scanList_cons (c : Char) (it : List Char) :
    scanList (c :: it)
      = match scanStep c it with
        | (none, it1) => scanList it1
        | (some tok, it1) => tok :: scanList it1 := by
  have hle := scanStep_length_le c it
  have h := scanLoop_eq_some (it.length + 1) (c :: it) (Nat.le_refl _)
  rw [scanLoop] at h
  rcases hstep : scanStep c it with ⟨_ | tok, it1⟩
  · rw [hstep] at h hle
    simp only at h
    rw [scanLoop_eq_some it.length it1 hle] at h
    simpa using h.symm
  · rw [hstep] at h hle
    simp only at h
    rw [scanLoop_eq_some it.length it1 hle] at h
    simpa using h.symm

/-- The integer loop runs through a run of digits. -/
theorem scanInt_append_digits (s : List Char) (hs : ∀ c ∈ s, isdigit c = true) :
    ∀ num : ℚ, ∃ v : ℚ, ∀ t : List Char, scanInt num (s ++ t) = scanInt v t := by
  induction s with
  | nil => intro num; exact ⟨num, fun t => rfl⟩
  | cons c s ih =>
    intro num
    have hc : isdigit c = true := hs c (List.mem_cons_self _ _)
    obtain ⟨v, hv⟩ := ih (fun d hd => hs d (List.mem_cons_of_mem _ hd)) (10 * num + digitVal c)
    exact ⟨v, fun t => by rw [List.cons_append, scanInt, if_pos hc, hv t]⟩

/-- The fraction loop runs through a run of digits. -/
theorem scanFrac_append_digits (s : List Char) (hs : ∀ c ∈ s, isdigit c = true) :
    ∀ num muler : ℚ, ∃ v m : ℚ, ∀ t : List Char,
      scanFrac num muler (s ++ t) = scanFrac v m t := by
  induction s with
  | nil => intro num muler; exact ⟨num, muler, fun t => rfl⟩
  | cons c s ih =>
    intro num muler
    have hc : isdigit c = true := hs c (List.mem_cons_self _ _)
    obtain ⟨v, m, hv⟩ := ih (fun d hd => hs d (List.mem_cons_of_mem _ hd))
      (num + muler / 10 * digitVal c) (muler / 10)
    exact ⟨v, m, fun t => by rw [List.cons_append, scanFrac, if_pos hc, hv t]⟩

/-- A digit is no whitespace. -/
theorem isspace_of_isdigit {c : Char} (h : isdigit c = true) : isspace c = false := by
  simp only [isdigit, isspace, Bool.and_eq_true, decide_eq_true_eq] at h ⊢
  have h1 : ¬ (c.toNat = 32) := by omega
  have h2 : ¬ (c.toNat ≤ 13) := by omega
  simp [h1, h2]

/-- The numeric branch, entered on a numeric literal followed by `/0`, consumes the literal
and stops at the `/`. -/
theorem scanNumber_literal_slash (a : String) (ha : isNumericLiteral a = true) :
    ∃ v : ℚ, scanNumber (a.data ++ ['/', '0']) = (v, ['/', '0']) := by
  have hsplit := List.takeWhile_append_dropWhile isdigit a.data
  have hdig : ∀ c ∈ a.data.takeWhile isdigit, isdigit c = true :=
    fun c hc => List.mem_takeWhile_imp hc
  obtain ⟨v, hv⟩ := scanInt_append_digits _ hdig 0
  have hslash : isdigit '/' = false := by decide
  unfold isNumericLiteral at ha
  rw [← hsplit, List.append_assoc]
  unfold scanNumber
  rw [hv]
  cases hD : a.data.dropWhile isdigit with
  | nil =>
    refine ⟨v, ?_⟩
    simp [scanInt, hslash]
  | cons c F =>
    rw [hD] at ha
    simp only [Bool.and_eq_true, decide_eq_true_eq, List.all_eq_true] at ha
    obtain ⟨hc, hF⟩ := ha
    subst hc
    obtain ⟨v1, m1, hv1⟩ := scanFrac_append_digits F hF v 1
    refine ⟨v1, ?_⟩
    simp [scanInt, isdigit_dot, hv1, scanFrac, hslash]

/-- The tokens of a numeric literal followed by `/0`: the literal, the operator `/`, zero. -/
theorem scanList_literal_slash (a : String) (ha : isNumericLiteral a = true) :
    ∃ v : ℚ, scanList (a.data ++ ['/', '0'])
      = [Token.ofNum v, Token.ofName "/", Token.ofNum 0] := by
  obtain ⟨v, hv⟩ := scanNumber_literal_slash a ha
  refine ⟨v, ?_⟩
  have htail : scanList ['/', '0'] = [Token.ofName "/", Token.ofNum 0] := by
    with_unfolding_all rfl
  cases hdata : a.data with
  | nil => simp [isNumericLiteral, hdata] at ha
  | cons c it =>
    rw [hdata] at hv
    have hhead : (c = '.' || isdigit c) = true ∧ isspace c = false := by
      by_cases hd : isdigit c = true
      · exact ⟨by simp [hd], isspace_of_isdigit hd⟩
      · have hD : (c :: it).dropWhile isdigit = c :: it := by
          simp [List.dropWhile_cons, hd]
        simp only [isNumericLiteral, hdata, hD, Bool.and_eq_true, decide_eq_true_eq] at ha
        obtain ⟨hc, _⟩ := ha
        subst hc
        exact ⟨by simp, by decide⟩
    rw [List.cons_append, scanList_cons]
    have hstep : scanStep c (it ++ ['/', '0']) = (some (Token.ofNum v), ['/', '0']) := by
      unfold scanStep
      rw [if_neg (by simp [hhead.2]), if_pos hhead.1]
      rw [List.cons_append] at hv
      simp [hv]
    rw [hstep]
    simp [htail]

/-! ### C7 -/

/-- C7: the function of the default `/` throws "Division by zero" exactly when its right
operand is zero and returns the quotient otherwise; and for every numeric literal `a`
(`digits`, `digits.digits`, either run of digits possibly empty, the literal not empty),
`Evaluate` of `a/0` throws "Division by zero" with the default operations. -/
theorem C7_division_by_zero (a : String) (args : Args) (ha : isNumericLiteral a = true) :
    (divFunc args = .error (.exception "Division by zero") ↔ args.a1 = 0)
      ∧ (args.a1 ≠ 0 → divFunc args = .ok (args.a0 / args.a1))
      ∧ findOp defaultOperations .binary "/" = some divOp
      ∧ divOp.func = divFunc
      ∧ Evaluate defaultOperations (a ++ "/0") = .error (.exception "Division by zero") := by
  refine ⟨?_, ?_, rfl, rfl, ?_⟩
  · by_cases h : args.a1 = 0 <;> simp [divFunc, h]
  · intro h
    simp [divFunc, h]
  · obtain ⟨v, hv⟩ := scanList_literal_slash a ha
    have hdiv : findOp defaultOperations .binary "/" = some divOp := rfl
    have hscan : Scan (a ++ "/0") = [Token.ofNum v, Token.ofName "/", Token.ofNum 0] := by
      rw [Scan, String.data_append]
      exact hv
    have hparse : Parse defaultOperations [Token.ofNum v, Token.ofName "/", Token.ofNum 0]
        = .ok [Token.ofNum v, Token.ofNum 0, (Token.ofName "/").withOper divOp] := by
      simp [Parse, parseLoop, prefixCase, suffixCase, DropOpers, MoreOrEqualPrior, resolveSuffix,
        nextIsOperand, parseDone, moveAll, popAll, closeBracket, Token.ofName, Token.ofNum,
        Token.withOper, hdiv]
    rw [Evaluate, hscan, hparse]
    simp [evalQueue, evalLoop, Token.ofNum, Token.ofName, Token.withOper, divOp, divFunc]

/-- C7 at the literal `1` and the operands `1`, `0`. -/
theorem C7_witness_one_over_zero :
    (divFunc ⟨1, 0⟩ = .error (.exception "Division by zero") ↔ (⟨1, 0⟩ : Args).a1 = 0)
      ∧ ((⟨1, 0⟩ : Args).a1 ≠ 0
        → divFunc ⟨1, 0⟩ = .ok ((⟨1, 0⟩ : Args).a0 / (⟨1, 0⟩ : Args).a1))
      ∧ findOp defaultOperations .binary "/" = some divOp
      ∧ divOp.func = divFunc
      ∧ Evaluate defaultOperations ("1" ++ "/0") = .error (.exception "Division by zero") :=
  C7_division_by_zero "1" ⟨1, 0⟩ (by decide)

/-! ### C8 -/

/-- C8, as it stands, fails for the token `(`: it is an operator token other than `)`, the
default operations register it neither as postfix nor as binary operator, and read in state
`suffix` it makes `Parse` throw "Expect operation", not "Unknown operation (". -/
theorem C8_counterexample_open_paren :
    Scan "1(" = [Token.ofNum 1, Token.ofName "("]
      ∧ Visits defaultOperations [Token.ofNum 1, Token.ofName "("] .suf [Token.ofName "("]
          [Token.ofNum 1] []
      ∧ findOp defaultOperations .postfixOp "(" = none
      ∧ findOp defaultOperations .binary "(" = none
      ∧ Parse defaultOperations [Token.ofNum 1, Token.ofName "("]
        = .error (.exception "Expect operation")
      ∧ Evaluate defaultOperations "1(" = .error (.exception "Expect operation") :=
  ⟨by with_unfolding_all rfl, Visits.prefixPass Visits.start rfl, rfl, rfl, rfl,
    by with_unfolding_all rfl⟩

/-- C8 (amended): for every registry and every token sequence, when the loop of `Parse` comes
to read, in state `suffix`, an operation token named neither `(` nor `)` whose text is
registered neither as postfix nor as binary operator, `Parse` throws "Unknown operation"
followed by the text; and `Evaluate("1 # 2")` throws "Unknown operation #" with the default
operations. -/
theorem C8_unknown_operator (operations : List Operation) (tokens : List Token) (tok : Token)
    (it numStack opStack : List Token)
    (htype : tok.type = .operation) (hopen : tok.operName ≠ "(") (hclose : tok.operName ≠ ")")
    (hvisit : Visits operations tokens .suf (tok :: it) numStack opStack)
    (hpost : findOp operations .postfixOp tok.operName = none)
    (hbin : findOp operations .binary tok.operName = none) :
    Parse operations tokens = .error (.exception ("Unknown operation " ++ tok.operName))
      ∧ Evaluate defaultOperations "1 # 2" = .error (.exception "Unknown operation #") := by
  refine ⟨?_, by with_unfolding_all rfl⟩
  rw [Parse_eq_of_visits hvisit, parseLoop]
  cases hn : nextIsOperand it <;>
    simp [suffixCase, resolveSuffix, htype, hopen, hclose, hpost, hbin, hn]

/-- C8 on the tokens of `1 # 2`. -/
theorem C8_witness_hash :
    Parse defaultOperations [Token.ofNum 1, Token.ofName "#", Token.ofNum 2]
        = .error (.exception ("Unknown operation " ++ (Token.ofName "#").operName))
      ∧ Evaluate defaultOperations "1 # 2" = .error (.exception "Unknown operation #") :=
  C8_unknown_operator defaultOperations [Token.ofNum 1, Token.ofName "#", Token.ofNum 2]
    (Token.ofName "#") [Token.ofNum 2] [Token.ofNum 1] [] rfl (by decide) (by decide)
    (Visits.prefixPass Visits.start rfl) rfl rfl

/-! ### C9 -/

/-- C9 on the code: `Parse` succeeds on the tokens of `(1` and returns `1 (`, whose `(` token
carries no resolved descriptor, so the sequence is no valid postfix sequence and the
evaluator reads it through a null pointer. -/
theorem C9_unclosed_paren_output_not_postfix :
    Scan "(1" = [Token.ofName "(", Token.ofNum 1]
      ∧ Parse defaultOperations [Token.ofName "(", Token.ofNum 1]
        = .ok [Token.ofNum 1, Token.ofName "("]
      ∧ (Token.ofName "(").type = .operation ∧ (Token.ofName "(").oper = none
      ∧ validPostfix [Token.ofNum 1, Token.ofName "("] = false
      ∧ evalQueue [Token.ofNum 1, Token.ofName "("] = .error .undefinedBehaviour :=
  ⟨by with_unfolding_all rfl, rfl, rfl, rfl, rfl, rfl⟩

/-! ### Whitespace between tokens -/

/-- A whitespace character is no digit. -/
theorem isdigit_of_isspace {c : Char} (h : isspace c = true) : isdigit c = false := by
  by_cases hd : isdigit c = true
  · rw [isspace_of_isdigit hd] at h
    exact absurd h (by simp)
  · simpa using hd

/-- A whitespace character is no letter. -/
theorem isalpha_of_isspace {c : Char} (h : isspace c = true) : isalpha c = false := by
  simp only [isspace, Bool.or_eq_true, Bool.and_eq_true, decide_eq_true_eq] at h
  have h1 : ¬ (65 ≤ c.toNat ∧ c.toNat ≤ 90) := by omega
  have h2 : ¬ (97 ≤ c.toNat ∧ c.toNat ≤ 122) := by omega
  simp only [isalpha, Bool.or_eq_false_iff, Bool.and_eq_false_iff, decide_eq_false_iff_not]
  omega

/-- A whitespace character is not `.`. -/
theorem ne_dot_of_isspace {c : Char} (h : isspace c = true) : c ≠ '.' := by
  intro hc
  subst hc
  exact absurd h (by decide)

/-- The integer loop stops at the first character that is no digit, and its number depends
on the digits before it alone. -/
theorem scanInt_eq (it : List Char) :
    ∀ num : ℚ, scanInt num it
      = ((scanInt num (it.takeWhile isdigit)).1, it.dropWhile isdigit) := by
  induction it with
  | nil => intro num; rfl
  | cons c it ih =>
    intro num
    by_cases hc : isdigit c = true
    · rw [scanInt, if_pos hc, ih, List.takeWhile_cons_of_pos hc, List.dropWhile_cons_of_pos hc,
        scanInt, if_pos hc]
    · rw [scanInt, if_neg hc, List.takeWhile_cons_of_neg hc, List.dropWhile_cons_of_neg hc]
      rfl

/-- The fraction loop stops at the first character that is no digit, and its number depends
on the digits before it alone. -/
theorem scanFrac_eq (it : List Char) :
    ∀ num muler : ℚ, scanFrac num muler it
      = ((scanFrac num muler (it.takeWhile isdigit)).1, it.dropWhile isdigit) := by
  induction it with
  | nil => intro num muler; rfl
  | cons c it ih =>
    intro num muler
    by_cases hc : isdigit c = true
    · rw [scanFrac, if_pos hc, ih, List.takeWhile_cons_of_pos hc, List.dropWhile_cons_of_pos hc,
        scanFrac, if_pos hc]
    · rw [scanFrac, if_neg hc, List.takeWhile_cons_of_neg hc, List.dropWhile_cons_of_neg hc]
      rfl

/-- The name loop stops at the first character that is no letter, and its name depends on the
letters before it alone. -/
theorem scanName_eq (it : List Char) :
    ∀ tok_name : String, scanName tok_name it
      = ((scanName tok_name (it.takeWhile isalpha)).1, it.dropWhile isalpha) := by
  induction it with
  | nil => intro tok_name; rfl
  | cons c it ih =>
    intro tok_name
    by_cases hc : isalpha c = true
    · rw [scanName, if_pos hc, ih, List.takeWhile_cons_of_pos hc, List.dropWhile_cons_of_pos hc,
        scanName, if_pos hc]
    · rw [scanName, if_neg hc, List.takeWhile_cons_of_neg hc, List.dropWhile_cons_of_neg hc]
      rfl

/-- A run of characters that a loop would not consume, put where the loop stopped at or
before, changes neither what the loop consumed nor where it stopped. -/
theorem dropWhile_insert (P : Char → Bool) (ws q : List Char)
    (hws : ∀ c ∈ ws, P c = false) :
    ∀ u : List Char, q.length ≤ ((u ++ q).dropWhile P).length →
      ∃ x : List Char, (u ++ q).dropWhile P = x ++ q
        ∧ (u ++ (ws ++ q)).dropWhile P = x ++ (ws ++ q)
        ∧ (u ++ (ws ++ q)).takeWhile P = (u ++ q).takeWhile P := by
  intro u
  induction u with
  | nil =>
    intro hlen
    refine ⟨[], ?_⟩
    simp only [List.nil_append] at hlen ⊢
    have hq : q.dropWhile P = q ∧ q.takeWhile P = [] := by
      cases q with
      | nil => simp
      | cons d q =>
        by_cases hd : P d = true
        · rw [List.dropWhile_cons_of_pos hd] at hlen
          have := (List.dropWhile_sublist P (l := q)).length_le
          simp only [List.length_cons] at hlen
          omega
        · exact ⟨List.dropWhile_cons_of_neg hd, List.takeWhile_cons_of_neg hd⟩
    cases ws with
    | nil => simpa using hq
    | cons w ws =>
      have hw : ¬ (P w = true) := by simp [hws w (List.mem_cons_self _ _)]
      refine ⟨hq.1, ?_, ?_⟩
      · rw [List.cons_append, List.dropWhile_cons_of_neg hw]
      · rw [List.cons_append, List.takeWhile_cons_of_neg hw, hq.2]
  | cons d u ih =>
    intro hlen
    by_cases hd : P d = true
    · simp only [List.cons_append, List.dropWhile_cons_of_pos hd,
        List.takeWhile_cons_of_pos hd] at hlen ⊢
      obtain ⟨x, h1, h2, h3⟩ := ih hlen
      exact ⟨x, h1, h2, by rw [h3]⟩
    · refine ⟨d :: u, ?_, ?_, ?_⟩
      · rw [List.cons_append, List.dropWhile_cons_of_neg hd]
      · rw [List.cons_append, List.dropWhile_cons_of_neg hd]
      · rw [List.cons_append, List.takeWhile_cons_of_neg hd, List.cons_append,
          List.takeWhile_cons_of_neg hd]

/-- Whitespace put where the integer loop stopped at or before changes neither its number nor
where it stopped. -/
theorem scanInt_insert (ws q : List Char) (hws : ∀ c ∈ ws, isspace c = true) (num : ℚ)
    (u : List Char) (hlen : q.length ≤ (scanInt num (u ++ q)).2.length) :
    ∃ x : List Char, scanInt num (u ++ q) = ((scanInt num (u ++ q)).1, x ++ q)
      ∧ scanInt num (u ++ (ws ++ q)) = ((scanInt num (u ++ q)).1, x ++ (ws ++ q)) := by
  rw [scanInt_eq] at hlen
  obtain ⟨x, h1, h2, h3⟩ :=
    dropWhile_insert isdigit ws q (fun c hc => isdigit_of_isspace (hws c hc)) u hlen
  refine ⟨x, ?_, ?_⟩
  · rw [scanInt_eq, h1]
  · rw [scanInt_eq (u ++ (ws ++ q)), h2, h3, scanInt_eq (u ++ q)]

/-- Whitespace put where the fraction loop stopped at or before changes neither its number
nor where it stopped. -/
theorem scanFrac_insert (ws q : List Char) (hws : ∀ c ∈ ws, isspace c = true) (num muler : ℚ)
    (u : List Char) (hlen : q.length ≤ (scanFrac num muler (u ++ q)).2.length) :
    ∃ x : List Char, scanFrac num muler (u ++ q) = ((scanFrac num muler (u ++ q)).1, x ++ q)
      ∧ scanFrac num muler (u ++ (ws ++ q))
        = ((scanFrac num muler (u ++ q)).1, x ++ (ws ++ q)) := by
  rw [scanFrac_eq] at hlen
  obtain ⟨x, h1, h2, h3⟩ :=
    dropWhile_insert isdigit ws q (fun c hc => isdigit_of_isspace (hws c hc)) u hlen
  refine ⟨x, ?_, ?_⟩
  · rw [scanFrac_eq, h1]
  · rw [scanFrac_eq (u ++ (ws ++ q)), h2, h3, scanFrac_eq (u ++ q)]

/-- Whitespace put where the name loop stopped at or before changes neither its name nor
where it stopped. -/
theorem scanName_insert (ws q : List Char) (hws : ∀ c ∈ ws, isspace c = true)
    (tok_name : String) (u : List Char)
    (hlen : q.length ≤ (scanName tok_name (u ++ q)).2.length) :
    ∃ x : List Char, scanName tok_name (u ++ q) = ((scanName tok_name (u ++ q)).1, x ++ q)
      ∧ scanName tok_name (u ++ (ws ++ q))
        = ((scanName tok_name (u ++ q)).1, x ++ (ws ++ q)) := by
  rw [scanName_eq] at hlen
  obtain ⟨x, h1, h2, h3⟩ :=
    dropWhile_insert isalpha ws q (fun c hc => isalpha_of_isspace (hws c hc)) u hlen
  refine ⟨x, ?_, ?_⟩
  · rw [scanName_eq, h1]
  · rw [scanName_eq (u ++ (ws ++ q)), h2, h3, scanName_eq (u ++ q)]

/-- The numeric branch when the integer loop stopped at a `.`. -/
theorem scanNumber_of_dot {it it1 : List Char} {num : ℚ}
    (h : scanInt 0 it = (num, '.' :: it1)) : scanNumber it = scanFrac num 1 it1 := by
  unfold scanNumber
  rw [h]
  rfl

/-- The numeric branch when the integer loop stopped at something else than a `.`. -/
theorem scanNumber_of_not_dot {it r : List Char} {num : ℚ}
    (h : scanInt 0 it = (num, r)) (hr : ∀ it1 : List Char, r ≠ '.' :: it1) :
    scanNumber it = (num, r) := by
  unfold scanNumber
  rw [h]
  split
  · next n it1 heq =>
    simp only [Prod.mk.injEq] at heq
    exact absurd heq.2 (hr it1)
  · next n it1 _ heq =>
    simp only [Prod.mk.injEq] at heq
    rw [heq.1, heq.2]

/-- Whitespace put where the numeric branch stopped at or before changes neither its number
nor where it stopped. -/
theorem scanNumber_insert (ws q : List Char) (hws : ∀ c ∈ ws, isspace c = true)
    (l : List Char) (hlen : q.length ≤ (scanNumber (l ++ q)).2.length) :
    ∃ x : List Char, scanNumber (l ++ q) = ((scanNumber (l ++ q)).1, x ++ q)
      ∧ scanNumber (l ++ (ws ++ q)) = ((scanNumber (l ++ q)).1, x ++ (ws ++ q)) := by
  have hnum := scanNumber_length_le (l ++ q)
  rcases hr0 : scanInt 0 (l ++ q) with ⟨num, r0⟩
  by_cases hdot : ∃ r1 : List Char, r0 = '.' :: r1
  · obtain ⟨r1, hr1⟩ := hdot
    subst hr1
    have hN := scanNumber_of_dot hr0
    rw [hN] at hlen ⊢
    have hF := scanFrac_length_le r1 num 1
    have hlen0 : q.length ≤ (scanInt 0 (l ++ q)).2.length := by
      rw [hr0]
      simp only [List.length_cons]
      omega
    obtain ⟨x0, h1, h2⟩ := scanInt_insert ws q hws 0 l hlen0
    rw [hr0] at h1 h2
    simp only [Prod.mk.injEq, true_and] at h1
    cases x0 with
    | nil =>
      simp only [List.nil_append] at h1
      rw [← h1] at hlen
      simp only [List.length_cons] at hlen
      omega
    | cons e x0 =>
      simp only [List.cons_append, List.cons.injEq] at h1
      obtain ⟨he, hr1⟩ := h1
      subst he hr1
      obtain ⟨x, h3, h4⟩ := scanFrac_insert ws q hws num 1 x0 hlen
      refine ⟨x, h3, ?_⟩
      have h5 : scanInt 0 (l ++ (ws ++ q)) = (num, '.' :: (x0 ++ (ws ++ q))) := h2
      rw [scanNumber_of_dot h5, h4]
  · have hnd : ∀ it1 : List Char, r0 ≠ '.' :: it1 := fun it1 h => hdot ⟨it1, h⟩
    have hN := scanNumber_of_not_dot hr0 hnd
    rw [hN] at hlen ⊢
    have hlen0 : q.length ≤ (scanInt 0 (l ++ q)).2.length := by
      rw [hr0]
      exact hlen
    obtain ⟨x0, h1, h2⟩ := scanInt_insert ws q hws 0 l hlen0
    rw [hr0] at h1 h2
    simp only [Prod.mk.injEq, true_and] at h1
    refine ⟨x0, by rw [h1], ?_⟩
    refine scanNumber_of_not_dot h2 ?_
    intro it1 hit1
    cases x0 with
    | nil =>
      cases ws with
      | nil =>
        simp only [List.nil_append] at hit1 h1
        exact hnd it1 (h1.trans hit1)
      | cons w ws =>
        simp only [List.nil_append, List.cons_append, List.cons.injEq] at hit1
        exact ne_dot_of_isspace (hws w (List.mem_cons_self _ _)) hit1.1
    | cons e x0 =>
      simp only [List.cons_append, List.cons.injEq] at hit1
      rw [hit1.1] at h1
      exact hnd (x0 ++ q) h1

/-- Whitespace put where a pass of the outer loop stopped at or before changes neither the
token of the pass nor where it stopped. -/
theorem scanStep_insert (ws q : List Char) (hws : ∀ c ∈ ws, isspace c = true) (c : Char)
    (u : List Char) (hlen : q.length ≤ (scanStep c (u ++ q)).2.length) :
    ∃ x : List Char, scanStep c (u ++ q) = ((scanStep c (u ++ q)).1, x ++ q)
      ∧ scanStep c (u ++ (ws ++ q)) = ((scanStep c (u ++ q)).1, x ++ (ws ++ q)) := by
  unfold scanStep at hlen ⊢
  by_cases hsp : isspace c = true
  · simp only [if_pos hsp]
    exact ⟨u, rfl, rfl⟩
  · simp only [if_neg hsp] at hlen ⊢
    by_cases hnum : (c = '.' || isdigit c) = true
    · simp only [if_pos hnum] at hlen ⊢
      obtain ⟨x, h1, h2⟩ := scanNumber_insert ws q hws (c :: u) hlen
      rw [List.cons_append] at h1 h2
      refine ⟨x, ?_, ?_⟩
      · rw [h1]
      · rw [List.cons_append] at h2
        rw [h2, h1]
    · simp only [if_neg hnum] at hlen ⊢
      by_cases hal : isalpha c = true
      · simp only [if_pos hal] at hlen ⊢
        obtain ⟨x, h1, h2⟩ := scanName_insert ws q hws "" (c :: u) hlen
        rw [List.cons_append] at h1 h2
        refine ⟨x, ?_, ?_⟩
        · rw [h1]
        · rw [List.cons_append] at h2
          rw [h2, h1]
      · simp only [if_neg hal]
        exact ⟨u, rfl, rfl⟩

/-- The outer loop only ever moves the iterator forward. -/
theorem ScanVisits.length_le {s r : List Char} (h : ScanVisits s r) : r.length ≤ s.length := by
  induction h with
  | start s => exact Nat.le_refl _
  | pass c it r _ ih =>
    have := scanStep_length_le c it
    simp only [List.length_cons]
    omega

/-- Leading whitespace yields no token. -/
theorem scanList_whitespace (ws q : List Char) (hws : ∀ c ∈ ws, isspace c = true) :
    scanList (ws ++ q) = scanList q := by
  induction ws with
  | nil => rfl
  | cons w ws ih =>
    have hw : isspace w = true := hws w (List.mem_cons_self _ _)
    rw [List.cons_append, scanList_cons]
    simp only [scanStep, if_pos hw]
    exact ih (fun c hc => hws c (List.mem_cons_of_mem _ hc))

/-- Whitespace put where the outer loop stands at the head of a pass does not change the
tokens. -/
theorem scanList_insert (ws q : List Char) (hws : ∀ c ∈ ws, isspace c = true)
    {s r : List Char} (h : ScanVisits s r) :
    ∀ p : List Char, r = q → s = p ++ q → scanList (p ++ (ws ++ q)) = scanList (p ++ q) := by
  induction h with
  | start s =>
    intro p hr hs
    subst hr
    have hp : p = [] := by
      have := congrArg List.length hs
      simp only [List.length_append] at this
      exact List.length_eq_zero.mp (by omega)
    subst hp
    exact scanList_whitespace ws _ hws
  | pass c it r hv ih =>
    intro p hr hs
    subst hr
    have hlen := hv.length_le
    cases p with
    | nil =>
      simp only [List.nil_append] at hs
      have hstep := scanStep_length_le c it
      rw [← hs] at hlen
      simp only [List.length_cons] at hlen
      omega
    | cons d p =>
      simp only [List.cons_append, List.cons.injEq] at hs
      obtain ⟨hd, hit⟩ := hs
      subst hd hit
      obtain ⟨x, h1, h2⟩ := scanStep_insert ws r hws c p hlen
      have hx : (scanStep c (p ++ r)).2 = x ++ r := by rw [h1]
      rw [List.cons_append, List.cons_append, scanList_cons, scanList_cons, h2, h1]
      have hih := ih x rfl hx
      rcases (scanStep c (p ++ r)).1 with _ | tok
      · exact hih
      · simp only [hih]

/-! ### C10 -/

/-- C10, as it stands, fails for the removal of whitespace: the blank of `1 2` separates the
two adjacent tokens `1` and `2`; without it the string is `12` and scans as the one token
`12`, and `Evaluate` gives 12 where `1 2` made it throw "Expect operation". -/
theorem C10_counterexample_removal :
    (∀ c ∈ " ".data, isspace c = true)
      ∧ Scan ("1" ++ " " ++ "2") = [Token.ofNum 1, Token.ofNum 2]
      ∧ Scan ("1" ++ "2") = [Token.ofNum 12]
      ∧ Evaluate defaultOperations ("1" ++ " " ++ "2") = .error (.exception "Expect operation")
      ∧ Evaluate defaultOperations ("1" ++ "2") = .ok 12 :=
  ⟨by decide, by with_unfolding_all rfl, by with_unfolding_all rfl, by with_unfolding_all rfl,
    by with_unfolding_all rfl⟩

/-- C10 (amended): for all strings `p`, `q` such that the scan of `p ++ q` has a token boundary
between them (the outer loop of `Scan` stands at the head of a pass there) and every run `ws`
of whitespace, `p ++ ws ++ q` and `p ++ q` have the same tokens and, for every registry, the
same result of `Evaluate`. So whitespace may be inserted at any token boundary, and removed
where the place stays a token boundary of the shortened string. -/
theorem C10_whitespace_at_token_boundary (operations : List Operation) (p ws q : String)
    (hws : ∀ c ∈ ws.data, isspace c = true)
    (hboundary : ScanVisits (p ++ q).data q.data) :
    Scan (p ++ ws ++ q) = Scan (p ++ q)
      ∧ Evaluate operations (p ++ ws ++ q) = Evaluate operations (p ++ q) := by
  have hscan : Scan (p ++ ws ++ q) = Scan (p ++ q) := by
    simp only [Scan, String.data_append, List.append_assoc]
    exact scanList_insert ws.data q.data hws hboundary p.data rfl (String.data_append p q)
  exact ⟨hscan, by rw [Evaluate, Evaluate, hscan]⟩

/-- C10 at `1+` and `2` with two blanks between them. -/
theorem C10_witness_one_plus_two :
    Scan ("1+" ++ "  " ++ "2") = Scan ("1+" ++ "2")
      ∧ Evaluate defaultOperations ("1+" ++ "  " ++ "2")
        = Evaluate defaultOperations ("1+" ++ "2") :=
  C10_whitespace_at_token_boundary defaultOperations "1+" "  " "2" (by decide)
    (ScanVisits.pass '1' ['+', '2'] ['2']
      (ScanVisits.pass '+' ['2'] ['2'] (ScanVisits.start ['2'])))

/-! ### C11 -/

/-- What the constructor adds to a list of operations comes after it, in the order of the
libraries. -/
theorem foldl_loaded_eq (loaded : List (Option (List Operation))) :
    ∀ operations : List Operation,
      loaded.foldl
          (fun operations opers =>
            match opers with
            | none => operations
            | some l => operations ++ l)
          operations
        = operations ++ (loaded.filterMap id).flatten := by
  induction loaded with
  | nil => intro operations; simp
  | cons opers loaded ih =>
    intro operations
    cases opers with
    | none => simpa using ih operations
    | some l => simp [ih, List.append_assoc]

/-- The registry is the default operations followed by the provided ones. -/
theorem Calculator_eq (loaded : List (Option (List Operation))) :
    Calculator loaded = defaultOperations ++ (loaded.filterMap id).flatten :=
  foldl_loaded_eq loaded defaultOperations

/-- A lookup that succeeds in a list succeeds with the same result in the list extended at
the end. -/
theorem findOp_append_of_some {operations provided : List Operation} {opType : OperationType}
    {operName : String} {op : Operation} (h : findOp operations opType operName = some op) :
    findOp (operations ++ provided) opType operName = some op := by
  unfold findOp at h ⊢
  rw [List.find?_append, h]
  rfl

/-- C11: for every list of provided descriptors the registry is the default operations
followed by the provided lists in order; a lookup returns the first entry of the registry
with the type and text asked for; hence a pair of type and text that a default operation has
is looked up to that default operation, and `Parse` resolves it so: the prefix case for a
prefix operator, and the suffix case whenever it settles on that type. -/
theorem C11_defaults_win_collisions (loaded : List (Option (List Operation)))
    (opType : OperationType) (op : Operation) (tok : Token) (it numStack opStack : List Token)
    (htype : tok.type = .operation)
    (h : findOp defaultOperations opType tok.operName = some op) :
    Calculator loaded = defaultOperations ++ (loaded.filterMap id).flatten
      ∧ (∀ (operations : List Operation) (ty : OperationType) (s : String) (o : Operation),
          findOp operations ty s = some o ↔
            (o.type = ty ∧ o.token = s) ∧ ∃ before after : List Operation,
              operations = before ++ o :: after
                ∧ ∀ o1 ∈ before, ¬ (o1.type = ty ∧ o1.token = s))
      ∧ findOp (Calculator loaded) opType tok.operName = some op
      ∧ (opType = .infixOp →
          prefixCase (Calculator loaded) tok numStack opStack
            = .ok (.pre, numStack, tok.withOper op :: opStack))
      ∧ (∀ op1 : Operation,
          resolveSuffix (Calculator loaded) tok.operName it = some (opType, op1) → op1 = op) := by
  have hreg := Calculator_eq loaded
  have hfind : findOp (Calculator loaded) opType tok.operName = some op := by
    rw [hreg]
    exact findOp_append_of_some h
  refine ⟨hreg, ?_, hfind, ?_, ?_⟩
  · intro operations ty s o
    unfold findOp
    rw [List.find?_eq_some]
    simp [imp_iff_not_or]
  · intro hty
    subst hty
    obtain ⟨hname, _⟩ := findOp_default_infixOp h
    have hne : tok.operName ≠ "(" := by rw [hname]; decide
    simp [prefixCase, htype, hne, hfind]
  · intro op1 hres
    unfold resolveSuffix at hres
    split at hres
    · cases hb : findOp (Calculator loaded) .binary tok.operName with
      | none => simp [hb] at hres
      | some o =>
        simp only [hb, Option.some.injEq, Prod.mk.injEq] at hres
        obtain ⟨hty, ho⟩ := hres
        subst hty ho
        rw [hfind] at hb
        exact (Option.some.inj hb).symm
    · cases hp : findOp (Calculator loaded) .postfixOp tok.operName with
      | some o =>
        simp only [hp, Option.some.injEq, Prod.mk.injEq] at hres
        obtain ⟨hty, ho⟩ := hres
        subst hty ho
        rw [hfind] at hp
        exact (Option.some.inj hp).symm
      | none =>
        cases hb : findOp (Calculator loaded) .binary tok.operName with
        | none => simp [hp, hb] at hres
        | some o =>
          simp only [hp, hb, Option.some.injEq, Prod.mk.injEq] at hres
          obtain ⟨hty, ho⟩ := hres
          subst hty ho
          rw [hfind] at hb
          exact (Option.some.inj hb).symm

/-- C11 at a library that returns its own binary `+` and prefix `-`: the `+` read after `1`
is still the default addition. -/
theorem C11_witness_provided_plus :
    Calculator [none, some [providedPlusOp, providedMinusOp]]
        = defaultOperations
          ++ (([none, some [providedPlusOp, providedMinusOp]] :
              List (Option (List Operation))).filterMap id).flatten
      ∧ (∀ (operations : List Operation) (ty : OperationType) (s : String) (o : Operation),
          findOp operations ty s = some o ↔
            (o.type = ty ∧ o.token = s) ∧ ∃ before after : List Operation,
              operations = before ++ o :: after
                ∧ ∀ o1 ∈ before, ¬ (o1.type = ty ∧ o1.token = s))
      ∧ findOp (Calculator [none, some [providedPlusOp, providedMinusOp]]) .binary
          (Token.ofName "+").operName = some addOp
      ∧ (OperationType.binary = .infixOp →
          prefixCase (Calculator [none, some [providedPlusOp, providedMinusOp]])
              (Token.ofName "+") [Token.ofNum 1] []
            = .ok (.pre, [Token.ofNum 1], (Token.ofName "+").withOper addOp :: []))
      ∧ (∀ op1 : Operation,
          resolveSuffix (Calculator [none, some [providedPlusOp, providedMinusOp]])
              (Token.ofName "+").operName [Token.ofNum 2] = some (.binary, op1) →
            op1 = addOp) :=
  C11_defaults_win_collisions [none, some [providedPlusOp, providedMinusOp]] .binary addOp
    (Token.ofName "+") [Token.ofNum 2] [Token.ofNum 1] [] rfl rfl

/-! ### C12 -/

/-- The loop with positions yields the tokens of the loop without, at positions that are not
before the position it starts at and increase from token to token. -/
theorem scanLoopAt_spec (fuel : Nat) :
    ∀ (pos : Nat) (it : List Char) (toks : List Token), scanLoop fuel it = some toks →
      ∃ placed : List (Nat × Token), scanLoopAt fuel pos it = some placed
        ∧ placed.map Prod.snd = toks
        ∧ (∀ x ∈ placed, pos ≤ x.1)
        ∧ placed.Pairwise (fun x y => x.1 < y.1) := by
  induction fuel with
  | zero =>
    intro pos it toks h
    cases it with
    | nil =>
      simp only [scanLoop, Option.some.injEq] at h
      exact ⟨[], rfl, by simp [← h], by simp, List.Pairwise.nil⟩
    | cons c it => simp [scanLoop] at h
  | succ fuel ih =>
    intro pos it toks h
    cases it with
    | nil =>
      simp only [scanLoop, Option.some.injEq] at h
      exact ⟨[], rfl, by simp [← h], by simp, List.Pairwise.nil⟩
    | cons c it =>
      have hlen := scanStep_length_le c it
      rw [scanLoop] at h
      rw [scanLoopAt]
      rcases hstep : scanStep c it with ⟨_ | tok, it1⟩
      · rw [hstep] at h hlen
        simp only at h hlen ⊢
        obtain ⟨placed, h1, h2, h3, h4⟩ := ih (pos + ((c :: it).length - it1.length)) it1 toks h
        exact ⟨placed, h1, h2, fun x hx => le_trans (Nat.le_add_right _ _) (h3 x hx), h4⟩
      · rw [hstep] at h hlen
        simp only at h hlen ⊢
        cases hrest : scanLoop fuel it1 with
        | none => simp [hrest] at h
        | some rest =>
          simp only [hrest, Option.map_some', Option.some.injEq] at h
          obtain ⟨placed, h1, h2, h3, h4⟩ :=
            ih (pos + ((c :: it).length - it1.length)) it1 rest hrest
          simp only [List.length_cons] at h1 h3
          refine ⟨(pos, tok) :: placed, by simp [h1], by simp [h2, ← h], ?_, ?_⟩
          · intro x hx
            rcases List.mem_cons.mp hx with hx | hx
            · rw [hx]
            · exact le_trans (Nat.le_add_right _ _) (h3 x hx)
          · refine List.Pairwise.cons ?_ h4
            intro x hx
            have := h3 x hx
            show pos < x.1
            omega

/-- C12: for every string the outer loop of `Scan`, given as many passes as the string has
characters, reaches the end and returns the token list `Scan str` (no path of `Scan` throws);
every pass leaves the iterator strictly nearer the end, also the numeric branch entered on a
`.` with no digit behind it, which yields the value 0 and consumes the `.` alone; and the
tokens of `Scan str` are, in order, at strictly increasing positions of the string. -/
theorem C12_scan_total (str : String) :
    scanLoop str.data.length str.data = some (Scan str)
      ∧ (∀ (c : Char) (it : List Char), (scanStep c it).2.length < (c :: it).length)
      ∧ (∀ it : List Char, (∀ d ∈ it.head?, isdigit d = false) →
          scanStep '.' it = (some (Token.ofNum 0), it))
      ∧ ∃ placed : List (Nat × Token),
          scanLoopAt str.data.length 0 str.data = some placed
            ∧ placed.map Prod.snd = Scan str
            ∧ placed.Pairwise (fun x y => x.1 < y.1) := by
  have hsome := scanLoop_eq_some str.data.length str.data (Nat.le_refl _)
  refine ⟨hsome, ?_, ?_, ?_⟩
  · intro c it
    have := scanStep_length_le c it
    simp only [List.length_cons]
    omega
  · intro it hit
    have hstop : scanFrac 0 1 it = (0, it) := by
      cases it with
      | nil => rfl
      | cons d it =>
        have hd : isdigit d = false := hit d (by simp)
        simp [scanFrac, hd]
    have hnum : scanNumber ('.' :: it) = (0, it) := by
      have hint : scanInt 0 ('.' :: it) = (0, '.' :: it) := by simp [scanInt, isdigit_dot]
      rw [scanNumber_of_dot hint, hstop]
    have hsp : isspace '.' = false := by decide
    simp [scanStep, hsp, hnum]
  · obtain ⟨placed, h1, h2, _, h4⟩ :=
      scanLoopAt_spec str.data.length 0 str.data (Scan str) hsome
    exact ⟨placed, h1, h2, h4⟩

/-! ### C13 -/

/-- A failure of a descriptor of the rest of a sequence is one of the whole sequence. -/
theorem thrownByDescriptor_cons {tok : Token} {tokenQ : List Token} {e : Failure}
    (h : thrownByDescriptor tokenQ e) : thrownByDescriptor (tok :: tokenQ) e := by
  obtain ⟨t, ht, op, args, h1, h2⟩ := h
  exact ⟨t, List.mem_cons_of_mem _ ht, op, args, h1, h2⟩

/-- The loop of the evaluator against the stack discipline: where the discipline goes through,
the loop ends with a stack of the height it gives unless a descriptor fails; where it does
not, the loop fails, with undefined behaviour unless a descriptor failed before. -/
theorem evalLoop_discipline (tokenQ : List Token) :
    ∀ (numStack : List ℚ) (args : Args),
      (∀ n : Nat, stackDiscipline tokenQ numStack.length = some n →
          (∃ numStack1 : List ℚ, evalLoop tokenQ numStack args = .ok numStack1
              ∧ numStack1.length = n)
            ∨ ∃ e : Failure, evalLoop tokenQ numStack args = .error e
              ∧ thrownByDescriptor tokenQ e)
        ∧ (stackDiscipline tokenQ numStack.length = none →
          ∃ e : Failure, evalLoop tokenQ numStack args = .error e
            ∧ (e = .undefinedBehaviour ∨ thrownByDescriptor tokenQ e)) := by
  induction tokenQ with
  | nil =>
    intro numStack args
    refine ⟨fun n h => Or.inl ⟨numStack, rfl, ?_⟩, fun h => ?_⟩
    · simpa [stackDiscipline] using h
    · simp [stackDiscipline] at h
  | cons tok tokenQ ih =>
    intro numStack args
    have lift : ∀ (st : List ℚ) (a : Args) (m : Nat), st.length = m →
        (∀ n : Nat, stackDiscipline tokenQ m = some n →
            (∃ numStack1 : List ℚ, evalLoop tokenQ st a = .ok numStack1
                ∧ numStack1.length = n)
              ∨ ∃ e : Failure, evalLoop tokenQ st a = .error e
                ∧ thrownByDescriptor (tok :: tokenQ) e)
          ∧ (stackDiscipline tokenQ m = none →
            ∃ e : Failure, evalLoop tokenQ st a = .error e
              ∧ (e = .undefinedBehaviour ∨ thrownByDescriptor (tok :: tokenQ) e)) := by
      intro st a m hm
      subst hm
      obtain ⟨h1, h2⟩ := ih st a
      refine ⟨fun n hn => ?_, fun hn => ?_⟩
      · rcases h1 n hn with h | ⟨e, he, ht⟩
        · exact Or.inl h
        · exact Or.inr ⟨e, he, thrownByDescriptor_cons ht⟩
      · obtain ⟨e, he, ht⟩ := h2 hn
        exact ⟨e, he, ht.imp id thrownByDescriptor_cons⟩
    by_cases hv : tok.type = .value
    · rw [stackDiscipline, evalLoop, if_pos hv, if_pos hv]
      exact lift (tok.num :: numStack) args _ rfl
    · rw [stackDiscipline, evalLoop, if_neg hv, if_neg hv]
      cases hop : tok.oper with
      | none =>
        refine ⟨fun n h => ?_, fun _ => ⟨.undefinedBehaviour, rfl, Or.inl rfl⟩⟩
        simp at h
      | some op =>
        have hthrown : ∀ (a : Args) (e : Failure), op.func a = .error e →
            thrownByDescriptor (tok :: tokenQ) e :=
          fun a e he => ⟨tok, List.mem_cons_self _ _, op, a, hop, he⟩
        by_cases hb : op.type = .binary
        · simp only [if_pos hb]
          match numStack with
          | [] =>
            refine ⟨fun n h => ?_, fun _ => ⟨.undefinedBehaviour, rfl, Or.inl rfl⟩⟩
            simp at h
          | [x] =>
            refine ⟨fun n h => ?_, fun _ => ⟨.undefinedBehaviour, rfl, Or.inl rfl⟩⟩
            simp at h
          | x1 :: x0 :: numStack1 =>
            have h2 : 2 ≤ (x1 :: x0 :: numStack1).length := by simp
            simp only [if_pos h2]
            cases hf : op.func ⟨x0, x1⟩ with
            | error e =>
              exact ⟨fun n _ => Or.inr ⟨e, rfl, hthrown _ e hf⟩,
                fun _ => ⟨e, rfl, Or.inr (hthrown _ e hf)⟩⟩
            | ok r => exact lift (r :: numStack1) ⟨x0, x1⟩ _ (by simp)
        · simp only [if_neg hb]
          match numStack with
          | [] =>
            refine ⟨fun n h => ?_, fun _ => ⟨.undefinedBehaviour, rfl, Or.inl rfl⟩⟩
            simp at h
          | x0 :: numStack1 =>
            have h1 : 1 ≤ (x0 :: numStack1).length := by simp
            simp only [if_pos h1]
            cases hf : op.func ⟨x0, args.a1⟩ with
            | error e =>
              exact ⟨fun n _ => Or.inr ⟨e, rfl, hthrown _ e hf⟩,
                fun _ => ⟨e, rfl, Or.inr (hthrown _ e hf)⟩⟩
            | ok r => exact lift (r :: numStack1) ⟨x0, args.a1⟩ _ (by simp)

/-- C13, as it stands, fails: the loop of `Evaluate` has no check of the value stack. On the
sequence `1 2` two values remain and it returns the top one, 2; on the empty sequence, and on
a lone prefix `-`, it reads the top of an empty stack. -/
theorem C13_counterexample_two_values :
    stackDiscipline [Token.ofNum 1, Token.ofNum 2] 0 = some 2
      ∧ evalQueue [Token.ofNum 1, Token.ofNum 2] = .ok 2
      ∧ evalQueue [] = .error .undefinedBehaviour
      ∧ evalQueue [(Token.ofName "-").withOper negOp] = .error .undefinedBehaviour :=
  ⟨rfl, rfl, rfl, rfl⟩

/-- C13 (amended): the loop of `Evaluate` checks nothing and raises no failure of its own. On
every sequence on which the stack discipline goes through and leaves at least one value, it
returns the value on top of the stack at the end, the single one when one remains, unless the
function of a descriptor fails, and then with that failure; on every sequence on which an
operator finds too few values or carries no descriptor, or which leaves no value, it ends in
undefined behaviour, unless the function of a descriptor failed before. -/
theorem C13_evaluator_checks_nothing (tokenQ : List Token) :
    (∀ n : Nat, stackDiscipline tokenQ 0 = some (n + 1) →
        (∃ (top : ℚ) (rest : List ℚ), evalLoop tokenQ [] ⟨0, 0⟩ = .ok (top :: rest)
            ∧ rest.length = n ∧ evalQueue tokenQ = .ok top)
          ∨ ∃ e : Failure, evalQueue tokenQ = .error e ∧ thrownByDescriptor tokenQ e)
      ∧ (stackDiscipline tokenQ 0 = none ∨ stackDiscipline tokenQ 0 = some 0 →
        ∃ e : Failure, evalQueue tokenQ = .error e
          ∧ (e = .undefinedBehaviour ∨ thrownByDescriptor tokenQ e)) := by
  obtain ⟨h1, h2⟩ := evalLoop_discipline tokenQ [] ⟨0, 0⟩
  simp only [List.length_nil] at h1 h2
  refine ⟨fun n hn => ?_, fun hn => ?_⟩
  · rcases h1 (n + 1) hn with ⟨st, hst, hlen⟩ | ⟨e, he, ht⟩
    · cases st with
      | nil => simp at hlen
      | cons top rest =>
        refine Or.inl ⟨top, rest, hst, by simpa using hlen, ?_⟩
        simp [evalQueue, hst]
    · exact Or.inr ⟨e, by simp [evalQueue, he], ht⟩
  · rcases hn with hn | hn
    · obtain ⟨e, he, ht⟩ := h2 hn
      exact ⟨e, by simp [evalQueue, he], ht⟩
    · rcases h1 0 hn with ⟨st, hst, hlen⟩ | ⟨e, he, ht⟩
      · have hnil : st = [] := List.length_eq_zero.mp hlen
        subst hnil
        exact ⟨.undefinedBehaviour, by simp [evalQueue, hst], Or.inl rfl⟩
      · exact ⟨e, by simp [evalQueue, he], Or.inr ht⟩

/-! ### The cases of the parser, read backwards -/

/-- A token that is no value is an operation. -/
theorem TokenType.eq_operation_of_ne_value {t : TokenType} (h : ¬ t = .value) :
    t = .operation := by
  cases t with
  | operation => rfl
  | value => exact absurd rfl h

/-- What the suffix case settles on was found by the lookup of that type, which is `binary`
or `postfix`. -/
theorem resolveSuffix_some {operations : List Operation} {operName : String} {it : List Token}
    {opType : OperationType} {op : Operation}
    (h : resolveSuffix operations operName it = some (opType, op)) :
    findOp operations opType operName = some op
      ∧ ((opType = .binary ∧ (nextIsOperand it = true
            ∨ findOp operations .postfixOp operName = none))
        ∨ (opType = .postfixOp ∧ nextIsOperand it = false)) := by
  unfold resolveSuffix at h
  split at h
  · next hn =>
    cases hb : findOp operations .binary operName with
    | none => simp [hb] at h
    | some o =>
      simp only [hb, Option.some.injEq, Prod.mk.injEq] at h
      obtain ⟨hty, ho⟩ := h
      subst hty ho
      exact ⟨hb, Or.inl ⟨rfl, Or.inl hn⟩⟩
  · next hn =>
    cases hp : findOp operations .postfixOp operName with
    | some o =>
      simp only [hp, Option.some.injEq, Prod.mk.injEq] at h
      obtain ⟨hty, ho⟩ := h
      subst hty ho
      exact ⟨hp, Or.inr ⟨rfl, by simpa using hn⟩⟩
    | none =>
      cases hb : findOp operations .binary operName with
      | none => simp [hp, hb] at h
      | some o =>
        simp only [hp, hb, Option.some.injEq, Prod.mk.injEq] at h
        obtain ⟨hty, ho⟩ := h
        subst hty ho
        exact ⟨hb, Or.inl ⟨rfl, Or.inr rfl⟩⟩

/-- The three ways the prefix case goes through. -/
theorem prefixCase_ok {operations : List Operation} {tok : Token}
    {numStack opStack numStack1 opStack1 : List Token} {state : State}
    (h : prefixCase operations tok numStack opStack = .ok (state, numStack1, opStack1)) :
    (tok.type = .value ∧ state = .suf ∧ numStack1 = tok :: numStack ∧ opStack1 = opStack)
      ∨ (tok.type = .operation ∧ tok.operName ≠ "(" ∧ state = .pre ∧ numStack1 = numStack
          ∧ ∃ op : Operation, findOp operations .infixOp tok.operName = some op
            ∧ opStack1 = tok.withOper op :: opStack)
      ∨ (tok.type = .operation ∧ tok.operName = "(" ∧ state = .pre ∧ numStack1 = numStack
          ∧ opStack1 = tok :: opStack) := by
  unfold prefixCase at h
  split at h
  · next hv =>
    simp only [Except.ok.injEq, Prod.mk.injEq] at h
    exact Or.inl ⟨hv, h.1.symm, h.2.1.symm, h.2.2.symm⟩
  · next hv =>
    have hty := TokenType.eq_operation_of_ne_value hv
    split at h
    · next hopen =>
      split at h
      · exact absurd h (by simp)
      · next op hf =>
        simp only [Except.ok.injEq, Prod.mk.injEq] at h
        exact Or.inr (Or.inl ⟨hty, hopen, h.1.symm, h.2.1.symm, op, hf, h.2.2.symm⟩)
    · next hopen =>
      simp only [Except.ok.injEq, Prod.mk.injEq] at h
      exact Or.inr (Or.inr ⟨hty, not_not.mp hopen, h.1.symm, h.2.1.symm, h.2.2.symm⟩)

/-- The two ways the suffix case goes through: a `)` that finds its `(`, or an operator that
is resolved, the stack drained for it, and pushed. -/
theorem suffixCase_ok {operations : List Operation} {tok : Token}
    {it numStack opStack numStack1 opStack1 : List Token} {state : State}
    (h : suffixCase operations tok it numStack opStack = .ok (state, numStack1, opStack1)) :
    tok.type = .operation ∧ tok.operName ≠ "("
      ∧ ((tok.operName = ")" ∧ state = .suf
            ∧ ∃ top : Token, top.operName = "("
              ∧ DropOpers numStack opStack tok = .ok (numStack1, top :: opStack1))
        ∨ (tok.operName ≠ ")"
            ∧ ∃ (opType : OperationType) (op : Operation) (opStack2 : List Token),
              resolveSuffix operations tok.operName it = some (opType, op)
                ∧ DropOpers numStack opStack (tok.withOper op) = .ok (numStack1, opStack2)
                ∧ opStack1 = tok.withOper op :: opStack2
                ∧ state = (if opType = .binary then .pre else .suf))) := by
  unfold suffixCase at h
  split at h
  · exact absurd h (by simp)
  · next hguard =>
    have hv : ¬ tok.type = .value := fun hv => hguard (Or.inl hv)
    have hopen : tok.operName ≠ "(" := fun ho => hguard (Or.inr ho)
    refine ⟨TokenType.eq_operation_of_ne_value hv, hopen, ?_⟩
    split at h
    · next hclose =>
      split at h
      · exact absurd h (by simp)
      · exact absurd h (by simp)
      · next ns1 top os1 hd =>
        split at h
        · next htop =>
          simp only [Except.ok.injEq, Prod.mk.injEq] at h
          obtain ⟨h1, h2, h3⟩ := h
          subst h1 h2 h3
          exact Or.inl ⟨hclose, rfl, top, htop, hd⟩
        · exact absurd h (by simp)
    · next hclose =>
      split at h
      · exact absurd h (by simp)
      · next opType op hres =>
        split at h
        · exact absurd h (by simp)
        · next ns1 os2 hd =>
          simp only [Except.ok.injEq, Prod.mk.injEq] at h
          obtain ⟨h1, h2, h3⟩ := h
          subst h1 h2 h3
          exact Or.inr ⟨hclose, opType, op, os2, hres, hd, rfl, rfl⟩

/-! ### The accumulator is a postfix sequence in the making -/

/-- The stack discipline on a sequence followed by another. -/
theorem stackDiscipline_append (a b : List Token) :
    ∀ height : Nat, stackDiscipline (a ++ b) height
      = (stackDiscipline a height).bind (stackDiscipline b) := by
  induction a with
  | nil => intro height; rfl
  | cons t a ih =>
    intro height
    simp only [List.cons_append, stackDiscipline]
    split
    · exact ih _
    · split
      · rfl
      · split
        · split
          · exact ih _
          · rfl
        · split
          · exact ih _
          · rfl

/-- The stack discipline on the accumulator after a push. -/
theorem stackDiscipline_push (t : Token) (numStack : List Token) :
    stackDiscipline (t :: numStack).reverse 0
      = (stackDiscipline numStack.reverse 0).bind (stackDiscipline [t]) := by
  rw [List.reverse_cons, stackDiscipline_append]

/-- What `DropOpers` moves for an operator not named `(` is not named `(`. -/
theorem MoreOrEqualPrior_true_ne_open {top Op : Token} (hOp : Op.operName ≠ "(")
    (h : MoreOrEqualPrior top Op = .ok true) : top.operName ≠ "(" := by
  intro htop
  simp [MoreOrEqualPrior, htop, hOp] at h

/-- The loop `moveAll` puts the accumulator, bottom first, on the operator stack. -/
theorem moveAll_eq (numStack : List Token) :
    ∀ opStack : List Token, moveAll numStack opStack = numStack.reverse ++ opStack := by
  induction numStack with
  | nil => intro opStack; rfl
  | cons t numStack ih => intro opStack; simp [moveAll, ih]

/-- The loop `popAll` appends the stack, top first, to the queue. -/
theorem popAll_eq (opStack : List Token) :
    ∀ res : List Token, popAll opStack res = res ++ opStack := by
  induction opStack with
  | nil => intro res; simp [popAll]
  | cons t opStack ih => intro res; simp [popAll, ih]

/-- The drain for an operator not named `(`, run in state `suffix`, keeps the accumulator a
postfix sequence in the making: one value more on the stack than binary operators wait. What
it moves was on the operator stack and is not named `(`. -/
theorem DropOpers_discipline (Op : Token) (hOp : Op.operName ≠ "(") (opStack : List Token) :
    ∀ (numStack numStack1 opStack1 : List Token),
      (∀ t ∈ opStack, t.type = .operation) →
      (∀ t ∈ opStack, t.operName ≠ "(" → t.oper ≠ none) →
      stackDiscipline numStack.reverse 0 = some (1 + pendingBinary opStack) →
      DropOpers numStack opStack Op = .ok (numStack1, opStack1) →
      stackDiscipline numStack1.reverse 0 = some (1 + pendingBinary opStack1)
        ∧ ∀ t ∈ numStack1, t ∈ numStack ∨ (t ∈ opStack ∧ t.operName ≠ "(") := by
  induction opStack with
  | nil =>
    intro numStack numStack1 opStack1 _ _ hd h
    simp only [DropOpers, Except.ok.injEq, Prod.mk.injEq] at h
    obtain ⟨h1, h2⟩ := h
    subst h1 h2
    exact ⟨hd, fun t ht => Or.inl ht⟩
  | cons top rest ih =>
    intro numStack numStack1 opStack1 hty hres hd h
    rw [DropOpers] at h
    split at h
    · exact absurd h (by simp)
    · next hm =>
      have htop : top.operName ≠ "(" := MoreOrEqualPrior_true_ne_open hOp hm
      have htype : top.type = .operation := hty top (List.mem_cons_self _ _)
      have hv : ¬ top.type = .value := by rw [htype]; decide
      have hpush : stackDiscipline (top :: numStack).reverse 0
          = some (1 + pendingBinary rest) := by
        rw [stackDiscipline_push, hd]
        simp only [Option.some_bind, stackDiscipline, if_neg hv]
        cases hop : top.oper with
        | none => exact absurd hop (hres top (List.mem_cons_self _ _) htop)
        | some op =>
          simp only [pendingBinary, htop, ne_eq, not_false_eq_true, if_true, hop]
          by_cases hb : op.type = .binary
          · simp only [if_pos hb]
            rw [if_pos (by omega)]
            congr 1
            omega
          · simp only [if_neg hb]
            rw [if_pos (by omega)]
            congr 1
            omega
      obtain ⟨h1, h2⟩ := ih (top :: numStack) numStack1 opStack1
        (fun t ht => hty t (List.mem_cons_of_mem _ ht))
        (fun t ht => hres t (List.mem_cons_of_mem _ ht)) hpush h
      refine ⟨h1, fun t ht => ?_⟩
      rcases h2 t ht with hmem | ⟨hmem, hne⟩
      · rcases List.mem_cons.mp hmem with heq | hmem
        · exact Or.inr ⟨by rw [heq]; exact List.mem_cons_self _ _, by rw [heq]; exact htop⟩
        · exact Or.inl hmem
      · exact Or.inr ⟨List.mem_cons_of_mem _ hmem, hne⟩
    · simp only [Except.ok.injEq, Prod.mk.injEq] at h
      obtain ⟨h1, h2⟩ := h
      subst h1 h2
      exact ⟨hd, fun t ht => Or.inl ht⟩

/-- At every head of a pass of `Parse` the state is `prefix` or `suffix`; the accumulator is a
postfix sequence in the making, holding as many values as binary operators wait on the
operator stack, and one more in state `suffix`; the operator stack holds operation tokens
only; no operation token of the accumulator is named `(`; and where the registry has no
prefix operator named `)`, no operation token of either stack is named `)`. -/
theorem Visits.discipline {operations : List Operation} {tokens : List Token} {state : State}
    {it numStack opStack : List Token} (h : Visits operations tokens state it numStack opStack) :
    (state = .pre ∨ state = .suf)
      ∧ stackDiscipline numStack.reverse 0
        = some ((if state = .suf then 1 else 0) + pendingBinary opStack)
      ∧ (∀ t ∈ opStack, t.type = .operation)
      ∧ (∀ t ∈ numStack, t.type = .operation → t.operName ≠ "(")
      ∧ (findOp operations .infixOp ")" = none →
          (∀ t ∈ opStack, t.operName ≠ ")")
            ∧ ∀ t ∈ numStack, t.type = .operation → t.operName ≠ ")") := by
  induction h with
  | start => simp [stackDiscipline, pendingBinary]
  | @prefixPass tok it numStack opStack state numStack1 opStack1 hv hc ih =>
    obtain ⟨_, hb, hty, hopen, hclose⟩ := ih
    simp only [show ¬ (State.pre = State.suf) from by decide, if_false, Nat.zero_add] at hb
    rcases prefixCase_ok hc with ⟨htok, hs, hn, ho⟩ | ⟨htok, hname, hs, hn, op, hf, ho⟩
      | ⟨htok, hname, hs, hn, ho⟩
    · subst hs hn ho
      refine ⟨Or.inr rfl, ?_, hty, ?_, fun hreg => ⟨(hclose hreg).1, ?_⟩⟩
      · rw [stackDiscipline_push, hb]
        simp [stackDiscipline, htok, Nat.add_comm]
      · intro t ht hop
        rcases List.mem_cons.mp ht with heq | hmem
        · rw [heq, htok] at hop
          exact absurd hop (by decide)
        · exact hopen t hmem hop
      · intro t ht hop
        rcases List.mem_cons.mp ht with heq | hmem
        · rw [heq, htok] at hop
          exact absurd hop (by decide)
        · exact (hclose hreg).2 t hmem hop
    · subst hs hn ho
      have hinf : op.type = .infixOp := (findOp_some hf).1
      refine ⟨Or.inl rfl, ?_, ?_, hopen, fun hreg => ⟨?_, (hclose hreg).2⟩⟩
      · simp [hb, pendingBinary, Token.withOper, hname, hinf]
      · intro t ht
        rcases List.mem_cons.mp ht with heq | hmem
        · rw [heq]
          exact htok
        · exact hty t hmem
      · intro t ht
        rcases List.mem_cons.mp ht with heq | hmem
        · rw [heq]
          intro hcl
          simp only [Token.withOper] at hcl
          rw [hcl, hreg] at hf
          exact absurd hf (by simp)
        · exact (hclose hreg).1 t hmem
    · subst hs hn ho
      refine ⟨Or.inl rfl, ?_, ?_, hopen, fun hreg => ⟨?_, (hclose hreg).2⟩⟩
      · simp [hb, pendingBinary, hname]
      · intro t ht
        rcases List.mem_cons.mp ht with heq | hmem
        · rw [heq]
          exact htok
        · exact hty t hmem
      · intro t ht
        rcases List.mem_cons.mp ht with heq | hmem
        · rw [heq, hname]
          decide
        · exact (hclose hreg).1 t hmem
  | @suffixPass tok it numStack opStack state numStack1 opStack1 hv hc ih =>
    obtain ⟨hst, hb, hty, hopen, hclose⟩ := ih
    simp only [if_true] at hb
    have hres := hv.resolved
    obtain ⟨htok, hname, hcase⟩ := suffixCase_ok hc
    rcases hcase with ⟨hcl, hs, top, htop, hd⟩ | ⟨hcl, opType, op, opStack2, hr, hd, ho, hs⟩
    · subst hs
      obtain ⟨h1, h2⟩ := DropOpers_discipline tok hname opStack numStack numStack1
        (top :: opStack1) hty hres hb hd
      have hmem := DropOpers_mem tok opStack numStack numStack1 (top :: opStack1) hd
      refine ⟨Or.inr rfl, ?_, fun t ht => hty t (hmem t (List.mem_cons_of_mem _ ht)), ?_,
        fun hreg => ⟨fun t ht => (hclose hreg).1 t (hmem t (List.mem_cons_of_mem _ ht)), ?_⟩⟩
      · simpa [pendingBinary, htop] using h1
      · intro t ht hop
        rcases h2 t ht with hm | ⟨_, hne⟩
        · exact hopen t hm hop
        · exact hne
      · intro t ht hop
        rcases h2 t ht with hm | ⟨hm, _⟩
        · exact (hclose hreg).2 t hm hop
        · exact (hclose hreg).1 t hm
    · have hname1 : (tok.withOper op).operName ≠ "(" := hname
      obtain ⟨h1, h2⟩ := DropOpers_discipline (tok.withOper op) hname1 opStack numStack
        numStack1 opStack2 hty hres hb hd
      have hmem := DropOpers_mem (tok.withOper op) opStack numStack numStack1 opStack2 hd
      obtain ⟨hfind, hkind⟩ := resolveSuffix_some hr
      have hoty : op.type = opType := (findOp_some hfind).1
      subst ho
      refine ⟨?_, ?_, ?_, ?_, fun hreg => ⟨?_, ?_⟩⟩
      · rw [hs]
        by_cases hbin : opType = .binary
        · simp [hbin]
        · simp [hbin]
      · rw [hs, h1]
        rcases hkind with ⟨hbin, _⟩ | ⟨hpost, _⟩
        · subst hbin
          simp [pendingBinary, Token.withOper, hname, hoty, Nat.add_comm]
        · subst hpost
          simp [pendingBinary, Token.withOper, hname, hoty]
      · intro t ht
        rcases List.mem_cons.mp ht with heq | hm
        · rw [heq]
          exact htok
        · exact hty t (hmem t hm)
      · intro t ht hop
        rcases h2 t ht with hm | ⟨_, hne⟩
        · exact hopen t hm hop
        · exact hne
      · intro t ht
        rcases List.mem_cons.mp ht with heq | hm
        · rw [heq]
          exact hcl
        · exact (hclose hreg).1 t (hmem t hm)
      · intro t ht hop
        rcases h2 t ht with hm | ⟨hm, _⟩
        · exact (hclose hreg).2 t hm hop
        · exact (hclose hreg).1 t hm

/-- In state `suffix` the accumulator is not empty. -/
theorem Visits.numStack_ne_nil {operations : List Operation}
    {tokens it numStack opStack : List Token}
    (h : Visits operations tokens .suf it numStack opStack) : numStack ≠ [] := by
  obtain ⟨_, hb, _⟩ := h.discipline
  intro hnil
  rw [hnil] at hb
  simp [stackDiscipline] at hb
  omega

/-- The final drain, with `closeBracket`, goes through, keeps every token named `(` on the
operator stack, and leaves the accumulator as it is or longer. -/
theorem DropOpers_closeBracket (opStack : List Token) :
    ∀ numStack : List Token, ∃ numStack1 opStack1 : List Token,
      DropOpers numStack opStack closeBracket = .ok (numStack1, opStack1)
        ∧ (∀ t ∈ opStack, t.operName = "(" → t ∈ opStack1)
        ∧ (numStack ≠ [] → numStack1 ≠ []) := by
  induction opStack with
  | nil => intro numStack; exact ⟨numStack, [], rfl, fun t ht => by simp at ht, id⟩
  | cons top rest ih =>
    intro numStack
    by_cases htop : top.operName = "("
    · have hm : MoreOrEqualPrior top closeBracket = .ok false := by
        simp [MoreOrEqualPrior, htop, closeBracket]
      exact ⟨numStack, top :: rest, by rw [DropOpers, hm], fun t ht _ => ht, id⟩
    · have hm : MoreOrEqualPrior top closeBracket = .ok true := by
        simp [MoreOrEqualPrior, htop, closeBracket]
      obtain ⟨ns1, os1, h1, h2, h3⟩ := ih (top :: numStack)
      refine ⟨ns1, os1, by rw [DropOpers, hm]; exact h1, ?_, fun _ => h3 (by simp)⟩
      intro t ht hname
      rcases List.mem_cons.mp ht with heq | hmem
      · rw [heq] at hname
        exact absurd hname htop
      · exact h2 t hmem hname

/-- The value `*it - '0'` of a digit is its place in `0` to `9`. -/
theorem digitVal_of_isdigit {c : Char} (h : isdigit c = true) :
    digitVal c = ((c.toNat - 48 : Nat) : ℚ) := by
  simp only [isdigit, Bool.and_eq_true, decide_eq_true_eq] at h
  unfold digitVal
  have h48 : 48 ≤ c.toNat := h.1
  push_cast [Nat.cast_sub h48]
  rfl

/-- The numeral read from a given start. -/
theorem foldl_decimal (s : List Char) :
    ∀ n : Nat, s.foldl (fun n c => 10 * n + (c.toNat - 48)) n
      = n * 10 ^ s.length + decimal s := by
  induction s with
  | nil => intro n; simp [decimal]
  | cons c s ih =>
    intro n
    have h2 : decimal (c :: s)
        = s.foldl (fun n c => 10 * n + (c.toNat - 48)) (10 * 0 + (c.toNat - 48)) := rfl
    rw [List.foldl_cons, List.length_cons, h2, ih, ih (10 * 0 + (c.toNat - 48))]
    ring

/-- The numeral of a digit followed by digits. -/
theorem decimal_cons (c : Char) (s : List Char) :
    decimal (c :: s) = (c.toNat - 48) * 10 ^ s.length + decimal s := by
  have h2 : decimal (c :: s)
      = s.foldl (fun n c => 10 * n + (c.toNat - 48)) (10 * 0 + (c.toNat - 48)) := rfl
  rw [h2, foldl_decimal]
  simp

/-- The integer loop on a run of digits computes its numeral. -/
theorem scanInt_digits (s : List Char) (hs : ∀ c ∈ s, isdigit c = true) :
    ∀ (num : ℚ) (t : List Char),
      scanInt num (s ++ t) = scanInt (num * 10 ^ s.length + decimal s) t := by
  induction s with
  | nil => intro num t; simp [decimal]
  | cons c s ih =>
    intro num t
    have hc : isdigit c = true := hs c (List.mem_cons_self _ _)
    rw [List.cons_append, scanInt, if_pos hc, ih (fun d hd => hs d (List.mem_cons_of_mem _ hd)),
      digitVal_of_isdigit hc, decimal_cons]
    congr 1
    simp only [List.length_cons]
    push_cast
    ring

/-- The fraction loop on a run of digits adds its numeral, scaled by the weight. -/
theorem scanFrac_digits (s : List Char) (hs : ∀ c ∈ s, isdigit c = true) :
    ∀ (num muler : ℚ) (t : List Char),
      scanFrac num muler (s ++ t)
        = scanFrac (num + muler * decimal s / 10 ^ s.length) (muler / 10 ^ s.length) t := by
  induction s with
  | nil => intro num muler t; simp [decimal]
  | cons c s ih =>
    intro num muler t
    have hc : isdigit c = true := hs c (List.mem_cons_self _ _)
    rw [List.cons_append, scanFrac, if_pos hc,
      ih (fun d hd => hs d (List.mem_cons_of_mem _ hd)), digitVal_of_isdigit hc, decimal_cons]
    have h10 : (10 : ℚ) ^ s.length ≠ 0 := pow_ne_zero _ (by norm_num)
    congr 1
    · simp only [List.length_cons]
      push_cast
      field_simp
      ring
    · simp only [List.length_cons, pow_succ, div_div]
      congr 1
      ring

/-- A pass of `Scan` that starts at a digit or a `.` pushes the number of the numeric
branch. -/
theorem scanList_number (c : Char) (it : List Char) (h : c = '.' ∨ isdigit c = true) :
    scanList (c :: it)
      = Token.ofNum (scanNumber (c :: it)).1 :: scanList (scanNumber (c :: it)).2 := by
  have hsp : isspace c = false := by
    rcases h with h | h
    · subst h
      decide
    · exact isspace_of_isdigit h
  have hnum : (c = '.' || isdigit c) = true := by
    rcases h with h | h
    · simp [h]
    · simp [h]
  rw [scanList_cons]
  simp only [scanStep, hsp, Bool.false_eq_true, if_false, hnum, if_true]

/-- C15: for all strings of digits `I` and `F`, either possibly empty, `Scan` of `I` alone,
when not empty, is one value token, the number `I` denotes in base ten; `Scan` of `I`, a `.`
and `F` is one value token, of value `int(I) + int(F) / 10 ^ length(F)` in exact arithmetic;
`Scan` of `.` is the single value 0; and `Scan` of `1.2.3` is the two values 1.2 and 0.3. -/
theorem C15_numeric_literal_value (I F : List Char)
    (hI : ∀ c ∈ I, isdigit c = true) (hF : ∀ c ∈ F, isdigit c = true) :
    (I ≠ [] → Scan (String.mk I) = [Token.ofNum (decimal I)])
      ∧ Scan (String.mk (I ++ '.' :: F))
        = [Token.ofNum (decimal I + decimal F / 10 ^ F.length)]
      ∧ Scan "." = [Token.ofNum 0]
      ∧ Scan "1.2.3" = [Token.ofNum (6 / 5), Token.ofNum (3 / 10)] := by
  have hint : ∀ t : List Char, scanInt 0 (I ++ t) = scanInt (decimal I) t := by
    intro t
    rw [scanInt_digits I hI]
    simp
  refine ⟨?_, ?_, by with_unfolding_all rfl, by with_unfolding_all rfl⟩
  · intro hne
    have hnum : scanNumber I = ((decimal I : ℚ), []) := by
      have h := hint []
      rw [List.append_nil] at h
      exact scanNumber_of_not_dot (by rw [h]; rfl) (by simp)
    cases hI' : I with
    | nil => exact absurd hI' hne
    | cons c it =>
      have hc : isdigit c = true := hI c (by rw [hI']; exact List.mem_cons_self _ _)
      show scanList (c :: it) = _
      rw [scanList_number c it (Or.inr hc), ← hI', hnum]
      rfl
  · have hfrac : scanFrac (decimal I) 1 F
        = ((decimal I : ℚ) + decimal F / 10 ^ F.length, []) := by
      have h := scanFrac_digits F hF (decimal I) 1 []
      rw [List.append_nil] at h
      rw [h]
      simp [scanFrac]
    have hnum : scanNumber (I ++ '.' :: F)
        = ((decimal I : ℚ) + decimal F / 10 ^ F.length, []) := by
      have h : scanInt 0 (I ++ '.' :: F) = ((decimal I : ℚ), '.' :: F) := by
        rw [hint]
        simp [scanInt, isdigit_dot]
      rw [scanNumber_of_dot h, hfrac]
    have hhead : ∃ c it, I ++ '.' :: F = c :: it ∧ (c = '.' ∨ isdigit c = true) := by
      cases hI' : I with
      | nil => exact ⟨'.', F, rfl, Or.inl rfl⟩
      | cons c it =>
        exact ⟨c, it ++ '.' :: F, rfl,
          Or.inr (hI c (by rw [hI']; exact List.mem_cons_self _ _))⟩
    obtain ⟨c, it, hsplit, hc⟩ := hhead
    show scanList (I ++ '.' :: F) = _
    rw [hsplit, scanList_number c it hc, ← hsplit, hnum]
    rfl

/-- C15 at the literals `12` and `12.5`. -/
theorem C15_witness_twelve_and_a_half :
    (['1', '2'] ≠ [] → Scan (String.mk ['1', '2']) = [Token.ofNum (decimal ['1', '2'])])
      ∧ Scan (String.mk (['1', '2'] ++ '.' :: ['5']))
        = [Token.ofNum (decimal ['1', '2'] + decimal ['5'] / 10 ^ ['5'].length)]
      ∧ Scan "." = [Token.ofNum 0]
      ∧ Scan "1.2.3" = [Token.ofNum (6 / 5), Token.ofNum (3 / 10)] :=
  C15_numeric_literal_value ['1', '2'] ['5'] (by decide) (by decide)

/-! ### C16 -/

/-- C16, as it stands, fails for the token `(`: it is an operator token other than `)`; read in
state `suffix` with a value behind it, in a registry that has a binary operator named `(`, it
is not looked up at all, and `Parse` throws "Expect operation". -/
theorem C16_counterexample_open_paren :
    (Token.ofName "(").type = .operation
      ∧ nextIsOperand [Token.ofNum 2] = true
      ∧ findOp [openParenOp] .binary "(" = some openParenOp
      ∧ suffixCase [openParenOp] (Token.ofName "(") [Token.ofNum 2] [Token.ofNum 1] []
        = .error (.exception "Expect operation")
      ∧ Parse [openParenOp] [Token.ofNum 1, Token.ofName "(", Token.ofNum 2]
        = .error (.exception "Expect operation") :=
  ⟨rfl, rfl, rfl, rfl, rfl⟩

/-- C16 (amended): for an operation token named neither `(` nor `)` read in state `suffix`:
the lookahead test holds exactly when a next token exists and is a value or an operation not
named `(`; when it holds the token is looked up as binary operator, found it is used and the
state becomes `prefix`, not found `Parse` throws "Unknown operation"; when it does not hold
the token is looked up as postfix operator, found it is used and the state stays `suffix`,
not found the lookup is done again as binary operator, with the same two ends as before; so
whenever the case goes through, the state is `prefix` exactly when the descriptor used is
binary, and `suffix` when it is postfix. With the default operations the `+` of `1+(2)` is
not found as postfix operator, is resolved as binary, and `Evaluate` gives 3. -/
theorem C16_arity_by_lookahead (operations : List Operation) (tok : Token)
    (it numStack opStack : List Token)
    (htype : tok.type = .operation) (hopen : tok.operName ≠ "(") (hclose : tok.operName ≠ ")") :
    (nextIsOperand it = true ↔
        ∃ (nxt : Token) (rest : List Token), it = nxt :: rest
          ∧ (nxt.type = .value ∨ (nxt.type = .operation ∧ nxt.operName ≠ "(")))
      ∧ (nextIsOperand it = true →
          suffixCase operations tok it numStack opStack
            = match findOp operations .binary tok.operName with
              | some op => pushResolved tok op .pre numStack opStack
              | none => .error (.exception ("Unknown operation " ++ tok.operName)))
      ∧ (nextIsOperand it = false →
          suffixCase operations tok it numStack opStack
            = match findOp operations .postfixOp tok.operName with
              | some op => pushResolved tok op .suf numStack opStack
              | none =>
                match findOp operations .binary tok.operName with
                | some op => pushResolved tok op .pre numStack opStack
                | none => .error (.exception ("Unknown operation " ++ tok.operName)))
      ∧ (∀ (state : State) (numStack1 opStack1 : List Token),
          suffixCase operations tok it numStack opStack = .ok (state, numStack1, opStack1) →
          ∃ (op : Operation) (opStack2 : List Token), opStack1 = tok.withOper op :: opStack2
            ∧ ((state = .pre ∧ op.type = .binary) ∨ (state = .suf ∧ op.type = .postfixOp)))
      ∧ findOp defaultOperations .postfixOp "+" = none
      ∧ resolveSuffix defaultOperations "+" [Token.ofName "(", Token.ofNum 2, Token.ofName ")"]
        = some (.binary, addOp)
      ∧ Evaluate defaultOperations "1+(2)" = .ok 3 := by
  have hv : ¬ tok.type = .value := by rw [htype]; decide
  refine ⟨?_, ?_, ?_, ?_, rfl, rfl, by with_unfolding_all rfl⟩
  · cases it with
    | nil => simp [nextIsOperand]
    | cons nxt rest => simp [nextIsOperand]
  · intro hn
    cases hb : findOp operations .binary tok.operName <;>
      simp [suffixCase, resolveSuffix, pushResolved, hv, hopen, hclose, hn, hb]
  · intro hn
    cases hp : findOp operations .postfixOp tok.operName <;>
      cases hb : findOp operations .binary tok.operName <;>
        simp [suffixCase, resolveSuffix, pushResolved, hv, hopen, hclose, hn, hb, hp]
  · intro state numStack1 opStack1 h
    obtain ⟨_, _, hcase⟩ := suffixCase_ok h
    rcases hcase with ⟨hcl, _⟩ | ⟨_, opType, op, opStack2, hr, _, ho, hs⟩
    · exact absurd hcl hclose
    · obtain ⟨hfind, hkind⟩ := resolveSuffix_some hr
      have hoty : op.type = opType := (findOp_some hfind).1
      refine ⟨op, opStack2, ho, ?_⟩
      rcases hkind with ⟨hbin, _⟩ | ⟨hpost, _⟩
      · subst hbin
        exact Or.inl ⟨by simpa using hs, hoty⟩
      · subst hpost
        exact Or.inr ⟨by simpa using hs, hoty⟩

/-- C16 at the `+` of `1+(2)`, read with `1` on the accumulator and `(2)` behind it. -/
theorem C16_witness_plus_before_paren :
    (nextIsOperand [Token.ofName "(", Token.ofNum 2, Token.ofName ")"] = true ↔
        ∃ (nxt : Token) (rest : List Token),
          [Token.ofName "(", Token.ofNum 2, Token.ofName ")"] = nxt :: rest
            ∧ (nxt.type = .value ∨ (nxt.type = .operation ∧ nxt.operName ≠ "(")))
      ∧ (nextIsOperand [Token.ofName "(", Token.ofNum 2, Token.ofName ")"] = true →
          suffixCase defaultOperations (Token.ofName "+")
              [Token.ofName "(", Token.ofNum 2, Token.ofName ")"] [Token.ofNum 1] []
            = match findOp defaultOperations .binary (Token.ofName "+").operName with
              | some op => pushResolved (Token.ofName "+") op .pre [Token.ofNum 1] []
              | none =>
                .error (.exception ("Unknown operation " ++ (Token.ofName "+").operName)))
      ∧ (nextIsOperand [Token.ofName "(", Token.ofNum 2, Token.ofName ")"] = false →
          suffixCase defaultOperations (Token.ofName "+")
              [Token.ofName "(", Token.ofNum 2, Token.ofName ")"] [Token.ofNum 1] []
            = match findOp defaultOperations .postfixOp (Token.ofName "+").operName with
              | some op => pushResolved (Token.ofName "+") op .suf [Token.ofNum 1] []
              | none =>
                match findOp defaultOperations .binary (Token.ofName "+").operName with
                | some op => pushResolved (Token.ofName "+") op .pre [Token.ofNum 1] []
                | none =>
                  .error (.exception ("Unknown operation " ++ (Token.ofName "+").operName)))
      ∧ (∀ (state : State) (numStack1 opStack1 : List Token),
          suffixCase defaultOperations (Token.ofName "+")
              [Token.ofName "(", Token.ofNum 2, Token.ofName ")"] [Token.ofNum 1] []
            = .ok (state, numStack1, opStack1) →
          ∃ (op : Operation) (opStack2 : List Token),
            opStack1 = (Token.ofName "+").withOper op :: opStack2
              ∧ ((state = .pre ∧ op.type = .binary)
                ∨ (state = .suf ∧ op.type = .postfixOp)))
      ∧ findOp defaultOperations .postfixOp "+" = none
      ∧ resolveSuffix defaultOperations "+" [Token.ofName "(", Token.ofNum 2, Token.ofName ")"]
        = some (.binary, addOp)
      ∧ Evaluate defaultOperations "1+(2)" = .ok 3 :=
  C16_arity_by_lookahead defaultOperations (Token.ofName "+")
    [Token.ofName "(", Token.ofNum 2, Token.ofName ")"] [Token.ofNum 1] [] rfl
    (by decide) (by decide)

/-! ### C17 -/

/-- C17: for every binary descriptor `f` and all value tokens `ta`, `tb`, the evaluator run on
`ta tb f` calls `f` with `args[0]` the number of `ta`, pushed first, and `args[1]` the number
of `tb`, pushed last, and returns what `f` returns; for every prefix or postfix descriptor
`g`, the evaluator run on `ta g` calls `g` with `args[0]` the number of `ta` (the cell
`args[1]` still holds its initial 0) and returns what `g` returns; and `Evaluate("8-3")` is
5 with the default operations, not -5. -/
theorem C17_binary_operand_order (f g : Operation) (ta tb tf tg : Token)
    (hta : ta.type = .value) (htb : tb.type = .value)
    (htf : tf.type = .operation) (hf : tf.oper = some f) (hfb : f.type = .binary)
    (htg : tg.type = .operation) (hg : tg.oper = some g)
    (hgu : g.type = .infixOp ∨ g.type = .postfixOp) :
    evalQueue [ta, tb, tf] = f.func ⟨ta.num, tb.num⟩
      ∧ evalQueue [ta, tg] = g.func ⟨ta.num, 0⟩
      ∧ Evaluate defaultOperations "8-3" = .ok 5
      ∧ Evaluate defaultOperations "8-3" ≠ .ok (-5) := by
  have hne : ¬ (TokenType.operation = TokenType.value) := by decide
  have hgb : ¬ g.type = .binary := by
    rcases hgu with h | h <;> rw [h] <;> decide
  have heval : Evaluate defaultOperations "8-3" = .ok 5 := by with_unfolding_all rfl
  refine ⟨?_, ?_, heval, ?_⟩
  · simp only [evalQueue, evalLoop, hta, htb, htf, hf, hfb, if_true, hne, if_false]
    cases f.func ⟨ta.num, tb.num⟩ <;> rfl
  · simp only [evalQueue, evalLoop, hta, htg, hg, hgb, if_true, hne, if_false]
    cases g.func ⟨ta.num, 0⟩ <;> rfl
  · rw [heval]
    intro h
    have h5 : (5 : ℚ) = -5 := Except.ok.inj h
    norm_num at h5

/-- C17 at `8 3 -` with the default subtraction and `8 -` with the default negation. -/
theorem C17_witness_eight_minus_three :
    evalQueue [Token.ofNum 8, Token.ofNum 3, (Token.ofName "-").withOper subOp]
        = subOp.func ⟨(Token.ofNum 8).num, (Token.ofNum 3).num⟩
      ∧ evalQueue [Token.ofNum 8, (Token.ofName "-").withOper negOp]
        = negOp.func ⟨(Token.ofNum 8).num, 0⟩
      ∧ Evaluate defaultOperations "8-3" = .ok 5
      ∧ Evaluate defaultOperations "8-3" ≠ .ok (-5) :=
  C17_binary_operand_order subOp negOp (Token.ofNum 8) (Token.ofNum 3)
    ((Token.ofName "-").withOper subOp) ((Token.ofName "-").withOper negOp)
    rfl rfl rfl rfl rfl rfl rfl (Or.inl rfl)

/-! ### C18 -/

/-- The messages of the prefix and suffix cases are not the message "Missing ')'". -/
theorem unknown_ne_missing_close (s : String) :
    "Unknown infix operation " ++ s ≠ "Missing ')'"
      ∧ "Unknown operation " ++ s ≠ "Missing ')'" := by
  constructor <;>
  · intro h
    have h1 := congrArg (fun x : String => x.data.head?) h
    simp [String.data_append] at h1

/-- A drain fails only by reading the operation of a token that has none. -/
theorem DropOpers_error (Op : Token) (opStack : List Token) :
    ∀ (numStack : List Token) (e : Failure),
      DropOpers numStack opStack Op = .error e → e = .undefinedBehaviour := by
  induction opStack with
  | nil => intro numStack e h; simp [DropOpers] at h
  | cons top rest ih =>
    intro numStack e h
    rw [DropOpers] at h
    split at h
    · next e1 hm =>
      simp only [Except.error.injEq] at h
      subst h
      unfold MoreOrEqualPrior at hm
      split at hm
      · split at hm <;> simp at hm
      · split at hm
        · split at hm <;> simp at hm
        · split at hm
          · simp at hm
          · split at hm
            · simpa using hm.symm
            · simp at hm
    · exact ih _ e h
    · simp at h

/-- The prefix case never throws "Missing ')'". -/
theorem prefixCase_ne_missing_close (operations : List Operation) (tok : Token)
    (numStack opStack : List Token) :
    prefixCase operations tok numStack opStack ≠ .error (.exception "Missing ')'") := by
  unfold prefixCase
  split
  · simp
  · split
    · split
      · simp only [ne_eq, Except.error.injEq, Failure.exception.injEq]
        exact (unknown_ne_missing_close tok.operName).1
      · simp
    · simp

/-- The suffix case never throws "Missing ')'". -/
theorem suffixCase_ne_missing_close (operations : List Operation) (tok : Token)
    (it numStack opStack : List Token) :
    suffixCase operations tok it numStack opStack ≠ .error (.exception "Missing ')'") := by
  unfold suffixCase
  split
  · simp only [ne_eq, Except.error.injEq, Failure.exception.injEq]
    decide
  · split
    · split
      · next e hd =>
        rw [DropOpers_error _ _ _ _ hd]
        simp
      · simp only [ne_eq, Except.error.injEq, Failure.exception.injEq]
        decide
      · split
        · simp
        · simp only [ne_eq, Except.error.injEq, Failure.exception.injEq]
          decide
    · split
      · simp only [ne_eq, Except.error.injEq, Failure.exception.injEq]
        exact (unknown_ne_missing_close tok.operName).2
      · split
        · next e hd =>
          rw [DropOpers_error _ _ _ _ hd]
          simp
        · simp

/-- From every head it visits, the loop of `Parse` ends otherwise than by "Missing ')'". -/
theorem parseLoop_ne_missing_close (operations : List Operation) (tokens : List Token) :
    ∀ (it : List Token) (state : State) (numStack opStack : List Token),
      Visits operations tokens state it numStack opStack →
      parseLoop operations state it numStack opStack ≠ .error (.exception "Missing ')'") := by
  intro it
  induction it with
  | nil =>
    intro state numStack opStack hv
    rcases hv.discipline.1 with hs | hs
    · subst hs
      rw [parseLoop]
      simp only [ne_eq, Except.error.injEq, Failure.exception.injEq]
      decide
    · subst hs
      obtain ⟨ns1, os1, h1, _, h3⟩ := DropOpers_closeBracket opStack numStack
      have hne := h3 hv.numStack_ne_nil
      rw [parseLoop, parseDone, h1]
      cases ns1 with
      | nil => exact absurd rfl hne
      | cons t ns1 => simp
  | cons tok it ih =>
    intro state numStack opStack hv
    rcases hv.discipline.1 with hs | hs
    · subst hs
      rw [parseLoop]
      split
      · next e he =>
        intro h
        rw [Except.error.inj h] at he
        exact prefixCase_ne_missing_close _ _ _ _ he
      · next st ns1 os1 hc => exact ih st ns1 os1 (Visits.prefixPass hv hc)
    · subst hs
      rw [parseLoop]
      split
      · next e he =>
        intro h
        rw [Except.error.inj h] at he
        exact suffixCase_ne_missing_close _ _ _ _ _ he
      · next st ns1 os1 hc => exact ih st ns1 os1 (Visits.suffixPass hv hc)

/-- The iterator of `Parse` stands in the token sequence: what is still to read is its end. -/
theorem Visits.suffix {operations : List Operation} {tokens : List Token} {state : State}
    {it numStack opStack : List Token} (h : Visits operations tokens state it numStack opStack) :
    ∃ read : List Token, tokens = read ++ it := by
  induction h with
  | start => exact ⟨[], rfl⟩
  | @prefixPass tok it numStack opStack state numStack1 opStack1 _ _ ih =>
    obtain ⟨read, hr⟩ := ih
    exact ⟨read ++ [tok], by rw [hr]; simp⟩
  | @suffixPass tok it numStack opStack state numStack1 opStack1 _ _ ih =>
    obtain ⟨read, hr⟩ := ih
    exact ⟨read ++ [tok], by rw [hr]; simp⟩

/-- Every token named `(` on the operator stack is a token of the input, as it was read. -/
theorem Visits.open_mem {operations : List Operation} {tokens : List Token} {state : State}
    {it numStack opStack : List Token} (h : Visits operations tokens state it numStack opStack) :
    ∀ t ∈ opStack, t.operName = "(" → t ∈ tokens := by
  induction h with
  | start => intro t ht; simp at ht
  | @prefixPass tok it numStack opStack state numStack1 opStack1 hv hc ih =>
    obtain ⟨read, hr⟩ := hv.suffix
    have htok : tok ∈ tokens := by rw [hr]; simp
    intro t ht hname
    rcases prefixCase_ok hc with ⟨_, _, _, ho⟩ | ⟨_, hne, _, _, op, _, ho⟩
      | ⟨_, _, _, _, ho⟩
    · subst ho
      exact ih t ht hname
    · subst ho
      rcases List.mem_cons.mp ht with heq | hmem
      · rw [heq] at hname
        exact absurd hname hne
      · exact ih t hmem hname
    · subst ho
      rcases List.mem_cons.mp ht with heq | hmem
      · rw [heq]
        exact htok
      · exact ih t hmem hname
  | @suffixPass tok it numStack opStack state numStack1 opStack1 hv hc ih =>
    intro t ht hname
    obtain ⟨_, hne, hcase⟩ := suffixCase_ok hc
    rcases hcase with ⟨_, _, top, _, hd⟩ | ⟨_, opType, op, opStack2, _, hd, ho, _⟩
    · exact ih t (DropOpers_mem _ _ _ _ _ hd t (List.mem_cons_of_mem _ ht)) hname
    · subst ho
      rcases List.mem_cons.mp ht with heq | hmem
      · rw [heq] at hname
        exact absurd hname hne
      · exact ih t (DropOpers_mem _ _ _ _ _ hd t hmem) hname

/-- The tokens the outer loop of `Scan` returns carry no resolved operation. -/
theorem scanLoop_oper_none (fuel : Nat) :
    ∀ (it : List Char) (toks : List Token), scanLoop fuel it = some toks →
      ∀ t ∈ toks, t.oper = none := by
  induction fuel with
  | zero =>
    intro it toks h t ht
    cases it with
    | nil =>
      simp only [scanLoop, Option.some.injEq] at h
      rw [← h] at ht
      simp at ht
    | cons c it => simp [scanLoop] at h
  | succ fuel ih =>
    intro it toks h t ht
    cases it with
    | nil =>
      simp only [scanLoop, Option.some.injEq] at h
      rw [← h] at ht
      simp at ht
    | cons c it =>
      rw [scanLoop] at h
      rcases hstep : scanStep c it with ⟨_ | tok, it1⟩
      · rw [hstep] at h
        exact ih it1 toks h t ht
      · rw [hstep] at h
        simp only at h
        cases hrest : scanLoop fuel it1 with
        | none => simp [hrest] at h
        | some rest =>
          simp only [hrest, Option.map_some', Option.some.injEq] at h
          rw [← h] at ht
          rcases List.mem_cons.mp ht with heq | hmem
          · subst heq
            unfold scanStep at hstep
            split at hstep
            · simp at hstep
            · split at hstep
              · simp only [Prod.mk.injEq, Option.some.injEq] at hstep
                rw [← hstep.1]
                rfl
              · split at hstep
                · simp only [Prod.mk.injEq, Option.some.injEq] at hstep
                  rw [← hstep.1]
                  rfl
                · simp only [Prod.mk.injEq, Option.some.injEq] at hstep
                  rw [← hstep.1]
                  rfl
          · exact ih it1 rest hrest t hmem

/-- C18: for every registry and every token sequence, in state `suffix`, from which alone the
state `done` is entered, the accumulator is never empty; so `Parse` never throws
"Missing ')'"; and when the end of the tokens is reached, `Parse` succeeds and every token
named `(` still on the operator stack is in its output, an operation token, as it was read:
without resolved descriptor when the tokens came without, as those of `Scan` always do. -/
theorem C18_missing_close_paren_unreachable (operations : List Operation)
    (tokens : List Token) :
    (∀ it numStack opStack : List Token,
        Visits operations tokens .suf it numStack opStack → numStack ≠ [])
      ∧ Parse operations tokens ≠ .error (.exception "Missing ')'")
      ∧ (∀ numStack opStack : List Token, Visits operations tokens .suf [] numStack opStack →
          ∃ tokenQ : List Token, Parse operations tokens = .ok tokenQ
            ∧ ∀ t ∈ opStack, t.operName = "(" →
              t ∈ tokenQ ∧ t.type = .operation ∧ t ∈ tokens
                ∧ ((∀ u ∈ tokens, u.oper = none) → t.oper = none))
      ∧ ∀ (str : String), ∀ t ∈ Scan str, t.oper = none := by
  refine ⟨fun it numStack opStack h => h.numStack_ne_nil, ?_, ?_, ?_⟩
  · exact parseLoop_ne_missing_close operations tokens tokens .pre [] [] Visits.start
  · intro numStack opStack hv
    obtain ⟨ns1, os1, h1, h2, h3⟩ := DropOpers_closeBracket opStack numStack
    have hne := h3 hv.numStack_ne_nil
    refine ⟨ns1.reverse ++ os1, ?_, ?_⟩
    · rw [Parse_eq_of_visits hv, parseLoop, parseDone, h1]
      simp only [moveAll_eq, popAll_eq, List.nil_append]
      rw [if_neg (by simpa using hne)]
    · intro t ht hname
      have hmem := hv.open_mem t ht hname
      exact ⟨List.mem_append_right _ (h2 t ht hname), hv.discipline.2.2.1 t ht, hmem,
        fun hall => hall t hmem⟩
  · intro str t ht
    exact scanLoop_oper_none str.data.length str.data (Scan str)
      (scanLoop_eq_some _ _ (Nat.le_refl _)) t ht

/-! ### C19 -/

/-- On a stack whose tokens not named `(` are resolved, a drain never fails. -/
theorem DropOpers_ok_of_resolved (Op : Token) (opStack : List Token) :
    ∀ numStack : List Token, (∀ t ∈ opStack, t.operName ≠ "(" → t.oper ≠ none) →
      ∃ numStack1 opStack1 : List Token,
        DropOpers numStack opStack Op = .ok (numStack1, opStack1) := by
  induction opStack with
  | nil => intro numStack _; exact ⟨numStack, [], rfl⟩
  | cons top rest ih =>
    intro numStack hres
    have hm : ∃ b : Bool, MoreOrEqualPrior top Op = .ok b := by
      unfold MoreOrEqualPrior
      split
      · split
        · exact ⟨false, rfl⟩
        · exact ⟨true, rfl⟩
      · next hopen =>
        split
        · split
          · exact ⟨false, rfl⟩
          · exact ⟨true, rfl⟩
        · cases Op.oper with
          | none => exact ⟨true, rfl⟩
          | some o2 =>
            cases h1 : top.oper with
            | none => exact absurd h1 (hres top (List.mem_cons_self _ _) hopen)
            | some o1 => exact ⟨_, rfl⟩
    obtain ⟨b, hb⟩ := hm
    rw [DropOpers, hb]
    cases b with
    | true => exact ih (top :: numStack) (fun t ht => hres t (List.mem_cons_of_mem _ ht))
    | false => exact ⟨numStack, top :: rest, rfl⟩

/-- C19, as it stands, fails for a postfix operator whose text is `)`: registered as postfix
and not as binary operator, read in state `suffix` in `2 ) 1` with the value `1` behind it, it
is taken for the closing parenthesis and `Parse` throws "Missing '('", not
"Unknown operation )". -/
theorem C19_counterexample_close_paren_postfix :
    findOp (defaultOperations ++ [closeParenPostfixOp]) .postfixOp ")" = some closeParenPostfixOp
      ∧ findOp (defaultOperations ++ [closeParenPostfixOp]) .binary ")" = none
      ∧ Visits (defaultOperations ++ [closeParenPostfixOp])
          [Token.ofNum 2, Token.ofName ")", Token.ofNum 1] .suf
          [Token.ofName ")", Token.ofNum 1] [Token.ofNum 2] []
      ∧ Parse (defaultOperations ++ [closeParenPostfixOp])
          [Token.ofNum 2, Token.ofName ")", Token.ofNum 1]
        = .error (.exception "Missing '('") :=
  ⟨rfl, rfl, Visits.prefixPass Visits.start rfl, rfl⟩

/-- C19 (amended): for every registry in which a text other than `(` and `)` is registered as
postfix and not as binary operator, and every token sequence in which an operation token of
that text is read in state `suffix` with a token behind it, `Parse` fails: with "Unknown
operation" and the text when the next token is a value or an operation not named `(`, and
with "Expect operation" when the next token is `(`. With the postfix `i` of priority 40 added
to the default operations, `(2i)` and `2i+1` fail so and `2i` parses to `2 i`. -/
theorem C19_postfix_only_last (operations : List Operation) (tokens : List Token)
    (tok nxt : Token) (rest numStack opStack : List Token) (op : Operation)
    (htype : tok.type = .operation) (hopen : tok.operName ≠ "(") (hclose : tok.operName ≠ ")")
    (hpost : findOp operations .postfixOp tok.operName = some op)
    (hbin : findOp operations .binary tok.operName = none)
    (hvisit : Visits operations tokens .suf (tok :: nxt :: rest) numStack opStack) :
    (nxt.type = .value ∨ (nxt.type = .operation ∧ nxt.operName ≠ "(") →
        Parse operations tokens = .error (.exception ("Unknown operation " ++ tok.operName)))
      ∧ (nxt.type = .operation ∧ nxt.operName = "(" →
        Parse operations tokens = .error (.exception "Expect operation"))
      ∧ iOp.prior = 40 ∧ iOp.type = .postfixOp
      ∧ Parse (defaultOperations ++ [iOp]) (Scan "(2i)")
        = .error (.exception "Unknown operation i")
      ∧ Parse (defaultOperations ++ [iOp]) (Scan "2i+1")
        = .error (.exception "Unknown operation i")
      ∧ Parse (defaultOperations ++ [iOp]) (Scan "2i")
        = .ok [Token.ofNum 2, (Token.ofName "i").withOper iOp] := by
  have hv : ¬ tok.type = .value := by rw [htype]; decide
  refine ⟨?_, ?_, rfl, rfl, by with_unfolding_all rfl, by with_unfolding_all rfl,
    by with_unfolding_all rfl⟩
  · intro hnxt
    have hn : nextIsOperand (nxt :: rest) = true := by
      rcases hnxt with h | ⟨h1, h2⟩
      · simp [nextIsOperand, h]
      · simp [nextIsOperand, h1, h2]
    rw [Parse_eq_of_visits hvisit, parseLoop]
    simp [suffixCase, resolveSuffix, hv, hopen, hclose, hn, hbin]
  · intro hnxt
    obtain ⟨h1, h2⟩ := hnxt
    have hn : nextIsOperand (nxt :: rest) = false := by simp [nextIsOperand, h1, h2]
    obtain ⟨ns1, os1, hd⟩ := DropOpers_ok_of_resolved (tok.withOper op) opStack numStack
      hvisit.resolved
    rw [Parse_eq_of_visits hvisit, parseLoop]
    have hcase : suffixCase operations tok (nxt :: rest) numStack opStack
        = .ok (.suf, ns1, tok.withOper op :: os1) := by
      simp [suffixCase, resolveSuffix, hv, hopen, hclose, hn, hpost, hd]
    rw [hcase]
    simp only
    rw [parseLoop]
    simp [suffixCase, h2]

/-- C19 at the `i` of `2i+1`, read with `2` on the accumulator and `+1` behind it. -/
theorem C19_witness_two_i_plus_one :
    ((Token.ofName "+").type = .value
          ∨ ((Token.ofName "+").type = .operation ∧ (Token.ofName "+").operName ≠ "(") →
        Parse (defaultOperations ++ [iOp])
            [Token.ofNum 2, Token.ofName "i", Token.ofName "+", Token.ofNum 1]
          = .error (.exception ("Unknown operation " ++ (Token.ofName "i").operName)))
      ∧ ((Token.ofName "+").type = .operation ∧ (Token.ofName "+").operName = "(" →
        Parse (defaultOperations ++ [iOp])
            [Token.ofNum 2, Token.ofName "i", Token.ofName "+", Token.ofNum 1]
          = .error (.exception "Expect operation"))
      ∧ iOp.prior = 40 ∧ iOp.type = .postfixOp
      ∧ Parse (defaultOperations ++ [iOp]) (Scan "(2i)")
        = .error (.exception "Unknown operation i")
      ∧ Parse (defaultOperations ++ [iOp]) (Scan "2i+1")
        = .error (.exception "Unknown operation i")
      ∧ Parse (defaultOperations ++ [iOp]) (Scan "2i")
        = .ok [Token.ofNum 2, (Token.ofName "i").withOper iOp] :=
  C19_postfix_only_last (defaultOperations ++ [iOp])
    [Token.ofNum 2, Token.ofName "i", Token.ofName "+", Token.ofNum 1]
    (Token.ofName "i") (Token.ofName "+") [Token.ofNum 1] [Token.ofNum 2] [] iOp
    rfl (by decide) (by decide) rfl rfl (Visits.prefixPass Visits.start rfl)

/-! ### C20 -/

/-- C20: the drain for an incoming operator stops at the first entry of the operator stack
whose priority is lower than the operator's, after moving the entries above it, whose
priority is not lower; so with the default operations, for all value tokens `a`, `b`, `c`,
`Parse` of `[a, /, -, b, /, c]` is `[a, b, c, /, neg, /]`: the prefix `-` of priority 20 is
not moved for the second `/` of priority 30, nor the first `/` below it; and `Evaluate` of
`8 / - 2 / 2`, written without blanks, is `8 / (-(2/2)) = -8`, not `-2`. -/
theorem C20_lower_priority_prefix_shields (a b c top Op : Token) (o1 o2 : Operation)
    (higher rest numStack : List Token)
    (ha : a.type = .value) (hb : b.type = .value) (hc : c.type = .value)
    (hOp : Op.oper = some o2) (hname : Op.operName ≠ "(" ∧ Op.operName ≠ ")")
    (hhigher : ∀ t ∈ higher, t.operName ≠ "(" ∧ t.operName ≠ ")"
      ∧ ∃ o : Operation, t.oper = some o ∧ o.prior ≥ o2.prior)
    (htop : top.oper = some o1) (hlt : o1.prior < o2.prior) :
    DropOpers numStack (higher ++ top :: rest) Op = .ok (higher.reverse ++ numStack, top :: rest)
      ∧ Parse defaultOperations [a, Token.ofName "/", Token.ofName "-", b, Token.ofName "/", c]
        = .ok [a, b, c, (Token.ofName "/").withOper divOp, (Token.ofName "-").withOper negOp,
            (Token.ofName "/").withOper divOp]
      ∧ negOp.prior = 20 ∧ divOp.prior = 30
      ∧ Evaluate defaultOperations "8/-2/2" = .ok (-8)
      ∧ Evaluate defaultOperations "8/-2/2" ≠ .ok (-2) := by
  obtain ⟨hn1, hn2⟩ := hname
  have heval : Evaluate defaultOperations "8/-2/2" = .ok (-8) := by with_unfolding_all rfl
  have hdiv : findOp defaultOperations .binary "/" = some divOp := rfl
  have hneg : findOp defaultOperations .infixOp "-" = some negOp := rfl
  refine ⟨?_, ?_, rfl, rfl, heval, ?_⟩
  · have hstop : ∀ ns : List Token, DropOpers ns (top :: rest) Op = .ok (ns, top :: rest) := by
      intro ns
      have hm : MoreOrEqualPrior top Op = .ok false := by
        unfold MoreOrEqualPrior
        by_cases h1 : top.operName = "("
        · simp [h1, hn1]
        · by_cases h2 : top.operName = ")"
          · simp [h1, h2, hn1, hn2]
          · simp [h1, h2, hOp, htop, hlt]
      rw [DropOpers, hm]
    clear htop hlt
    induction higher generalizing numStack with
    | nil => simpa using hstop numStack
    | cons t higher ih =>
      obtain ⟨h1, h2, o, ho, hge⟩ := hhigher t (List.mem_cons_self _ _)
      have hm : MoreOrEqualPrior t Op = .ok true := by
        simp [MoreOrEqualPrior, h1, h2, hOp, ho, hge]
      rw [List.cons_append, DropOpers, hm]
      simp only
      rw [ih (t :: numStack) (fun u hu => hhigher u (List.mem_cons_of_mem _ hu))]
      simp
  · simp [Parse, parseLoop, prefixCase, suffixCase, DropOpers, MoreOrEqualPrior, resolveSuffix,
      nextIsOperand, parseDone, moveAll, popAll, closeBracket, Token.ofName, Token.withOper, ha,
      hb, hc, hdiv, hneg, divOp, negOp]
  · rw [heval]
    intro h
    have h8 : (-8 : ℚ) = -2 := Except.ok.inj h
    norm_num at h8

/-- C20 at `8 / - 2 / 2`: the second `/` finds the prefix `-` on top of the first `/`, and
nothing above it. -/
theorem C20_witness_eight_over_minus_two_over_two :
    DropOpers [Token.ofNum 2, Token.ofNum 8]
        (([] : List Token) ++ (Token.ofName "-").withOper negOp
          :: [(Token.ofName "/").withOper divOp])
        ((Token.ofName "/").withOper divOp)
        = .ok (([] : List Token).reverse ++ [Token.ofNum 2, Token.ofNum 8],
            (Token.ofName "-").withOper negOp :: [(Token.ofName "/").withOper divOp])
      ∧ Parse defaultOperations
          [Token.ofNum 8, Token.ofName "/", Token.ofName "-", Token.ofNum 2, Token.ofName "/",
            Token.ofNum 2]
        = .ok [Token.ofNum 8, Token.ofNum 2, Token.ofNum 2, (Token.ofName "/").withOper divOp,
            (Token.ofName "-").withOper negOp, (Token.ofName "/").withOper divOp]
      ∧ negOp.prior = 20 ∧ divOp.prior = 30
      ∧ Evaluate defaultOperations "8/-2/2" = .ok (-8)
      ∧ Evaluate defaultOperations "8/-2/2" ≠ .ok (-2) :=
  C20_lower_priority_prefix_shields (Token.ofNum 8) (Token.ofNum 2) (Token.ofNum 2)
    ((Token.ofName "-").withOper negOp) ((Token.ofName "/").withOper divOp) negOp divOp
    [] [(Token.ofName "/").withOper divOp] [Token.ofNum 2, Token.ofNum 8]
    rfl rfl rfl rfl ⟨by decide, by decide⟩ (fun t ht => absurd ht (List.not_mem_nil t))
    rfl (by decide)

end Calc
